import Mathlib

/-!
The move-table extractor `convertMoves.js`.

A shallow embedding of `3gen_env_Showdown/convertMoves.js`.

The script reads a table of moves (`allMoves`), keeps the entries whose `gen`
passes `data.gen && data.gen <= 3`, projects each kept entry onto nine fields,
runs `sanitize` over the projected record and stores it in `plain` under the
same key.  It then writes `plain` as JSON and prints `Object.keys(plain).length`.

Modelling decisions.

* A JavaScript value is a finite tree: `undefined`, `null`, booleans, numbers,
  strings, functions, arrays and plain objects.  An object is the list of its own
  enumerable string-keyed properties in the order `Object.entries` yields them.
  JavaScript objects never hold one key twice; where a statement depends on that,
  it carries the hypothesis explicitly (`keysNodup`, `wellFormed`).
* The assignment `out[k] = v` on an object created by `{}` overwrites the own
  property `k` when it exists and creates it otherwise, except for the key
  `__proto__`: that assignment reaches the setter inherited from
  `Object.prototype`, which creates no own property (`setProp`).  A source object
  may well hold `__proto__` as an own key (a computed key of a literal, or parsed
  JSON).  The re-ordering of integer-like keys is not modelled: the loops insert
  keys in enumeration order, which that re-ordering leaves unchanged.
* Numbers: the script performs no arithmetic, only a truthiness test and the
  comparison `<= 3`.  A number is NaN, an infinity, negative zero, or a finite
  value; finite values are rationals, which covers every finite double.
* The coercions the comparison `<=` applies to a string or to an object
  (`StringToNumber`, `ToPrimitive`) belong to the language runtime.  They are
  parameters (`Coercions`): every theorem holds for any choice of them.  The
  coercion of an object can throw (for instance when its `toString` is `null`).
* Reading a property of `undefined` or `null` throws a `TypeError`.
* `JSON.stringify` is modelled on value trees after `SerializeJSONProperty` of the
  language standard, with the document as a tree (`Json`) instead of text.  Creating
  the directory and writing the file are taken to succeed.
* The call stack is modelled in `sanitizeStack` only, by a bound on the number of
  nested calls; `sanitize` is what `sanitizeStack` returns when the stack suffices,
  and the statements about the table are about runs in which it does.
-/

namespace ConvertMoves

/-! ## Values -/

/-- JavaScript numbers, as far as the script can tell them apart. -/
inductive JSNum where
  | nan
  | posInf
  | negInf
  | negZero
  | fin (q : ℚ)
  deriving DecidableEq, Repr

/-- JavaScript values as finite trees.  A function is known only by its identity. -/
inductive Value where
  | undefined
  | null
  | bool (b : Bool)
  | num (n : JSNum)
  | str (s : String)
  | fn (ref : Nat)
  | arr (elems : List Value)
  | obj (entries : List (String × Value))

/-- The own enumerable properties of a plain object, in `Object.entries` order. -/
abbrev Obj := List (String × Value)

/-- The exceptions of the modelled part of the script: a `TypeError` (a property read on
`undefined` or `null`, a failed conversion to a primitive) and a `RangeError` (the call
stack is exhausted). -/
inductive JSError where
  | typeError
  | rangeError
  deriving DecidableEq, Repr

/-- The runtime coercions used by `<=`: `StringToNumber` on a string, and `ToPrimitive`
followed by `ToNumber` on an array, an object or a function, which can throw. -/
structure Coercions where
  stringToNumber : String → JSNum
  objectToNumber : Value → Except JSError JSNum

/-- The test `typeof v === 'function'`. -/
def isFn : Value → Bool
  | .fn _ => true
  | _ => false

/-- The keys of an object, as `Object.keys` lists them. -/
def keys (o : Obj) : List String := o.map Prod.fst

/-- The own-property test: is `k` a key of `o`. -/
def hasOwn (o : Obj) (k : String) : Bool := (o.lookup k).isSome

/-- Defining or overwriting the own property `k`: overwrite in place, or create at the
end. -/
def setOwn (o : Obj) (k : String) (v : Value) : Obj :=
  match o with
  | [] => [(k, v)]
  | (k0, v0) :: rest => if k0 = k then (k0, v) :: rest else (k0, v0) :: setOwn rest k v

/-- The assignment `o[k] = v` on an object created by `{}`.  For the key `__proto__` the
assignment runs the setter inherited from `Object.prototype`: it changes the prototype
of `o` at most, and `o` gets no own property.  For every other key it defines or
overwrites the own property. -/
def setProp (o : Obj) (k : String) (v : Value) : Obj :=
  if k = "__proto__" then o else setOwn o k v

/-- The property read `v.k` for the names the script reads.  On `undefined` and `null` it
throws; on an object it finds the own property or yields `undefined`; on any other value
the names the script reads first (`gen`) are not defined, so the read yields `undefined`. -/
def getProp (v : Value) (k : String) : Except JSError Value :=
  match v with
  | .undefined => .error .typeError
  | .null => .error .typeError
  | .obj es => .ok ((es.lookup k).getD .undefined)
  | _ => .ok .undefined

/-! ## sanitize -/

mutual
/-- The function `sanitize(obj)` of the script: arrays are mapped, objects are rebuilt without
their function-valued entries, everything else (also `null` and functions) is returned as is. -/
def sanitize : Value → Value
  | .arr xs => .arr (sanitizeElems xs)
  | .obj es => .obj (sanitizeEntries es [])
  | v => v
/-- The call `obj.map(sanitize)`. -/
def sanitizeElems : List Value → List Value
  | [] => []
  | x :: xs => sanitize x :: sanitizeElems xs
/-- The loop `for (const [k, v] of Object.entries(obj))` with the accumulator `out`. -/
def sanitizeEntries : List (String × Value) → Obj → Obj
  | [], out => out
  | (k, v) :: rest, out =>
    if isFn v then sanitizeEntries rest out
    else sanitizeEntries rest (setProp out k (sanitize v))
end

/-- The function `sanitize` on a call stack that holds at most `limit` nested calls of it
(the frame of `map` between two calls is counted with the call it makes): a call that
does not fit throws a `RangeError`. -/
def sanitizeStack : Nat → Value → Except JSError Value
  | 0, _ => .error .rangeError
  | limit + 1, .arr xs => do
    let ys ← xs.mapM (sanitizeStack limit)
    pure (.arr ys)
  | limit + 1, .obj es => do
    let out ← es.foldlM (fun out e =>
      if isFn e.2 then pure out
      else do
        let w ← sanitizeStack limit e.2
        pure (setProp out e.1 w)) []
    pure (.obj out)
  | _ + 1, v => .ok v

/-! ## Predicates on values -/

mutual
/-- A function occurs in the value: the value itself, an array element or a property
value, at any depth. -/
def hasFn : Value → Bool
  | .fn _ => true
  | .arr xs => hasFnElems xs
  | .obj es => hasFnEntries es
  | _ => false
/-- A function occurs in one of the elements. -/
def hasFnElems : List Value → Bool
  | [] => false
  | x :: xs => hasFn x || hasFnElems xs
/-- A function occurs in one of the property values. -/
def hasFnEntries : List (String × Value) → Bool
  | [] => false
  | (_, v) :: rest => hasFn v || hasFnEntries rest
end

mutual
/-- No object inside the value, at any depth, has a property whose value is a function. -/
def fnKeyFree : Value → Bool
  | .arr xs => fnKeyFreeElems xs
  | .obj es => fnKeyFreeEntries es
  | _ => true
/-- Every element is `fnKeyFree`. -/
def fnKeyFreeElems : List Value → Bool
  | [] => true
  | x :: xs => fnKeyFree x && fnKeyFreeElems xs
/-- No property value is a function, and every property value is `fnKeyFree`. -/
def fnKeyFreeEntries : List (String × Value) → Bool
  | [] => true
  | (_, v) :: rest => !isFn v && fnKeyFree v && fnKeyFreeEntries rest
end

/-- No key occurs twice among the entries. -/
def keysNodup (o : Obj) : Bool := decide (keys o).Nodup

mutual
/-- Every object inside the value, at any depth, holds each of its keys once: the
invariant of JavaScript objects. -/
def wellFormed : Value → Bool
  | .arr xs => wellFormedElems xs
  | .obj es => keysNodup es && wellFormedEntries es
  | _ => true
/-- Every element is `wellFormed`. -/
def wellFormedElems : List Value → Bool
  | [] => true
  | x :: xs => wellFormed x && wellFormedElems xs
/-- Every property value is `wellFormed`. -/
def wellFormedEntries : List (String × Value) → Bool
  | [] => true
  | (_, v) :: rest => wellFormed v && wellFormedEntries rest
end

mutual
/-- No object inside the value, at any depth, has the own key `__proto__`. -/
def protoFree : Value → Bool
  | .arr xs => protoFreeElems xs
  | .obj es => protoFreeEntries es
  | _ => true
/-- Every element is `protoFree`. -/
def protoFreeElems : List Value → Bool
  | [] => true
  | x :: xs => protoFree x && protoFreeElems xs
/-- No key is `__proto__`, and every property value is `protoFree`. -/
def protoFreeEntries : List (String × Value) → Bool
  | [] => true
  | (k, v) :: rest => decide (k ≠ "__proto__") && protoFree v && protoFreeEntries rest
end

/-! ## The filter and the projection -/

/-- ToBoolean: the falsy values are `undefined`, `null`, `false`, `0`, `-0`, `NaN` and
the empty string. -/
def truthy : Value → Bool
  | .undefined => false
  | .null => false
  | .bool b => b
  | .num .nan => false
  | .num .negZero => false
  | .num (.fin q) => decide (q ≠ 0)
  | .num _ => true
  | .str s => decide (s ≠ "")
  | _ => true

/-- ToNumber: total on primitives, through `ToPrimitive` on arrays, objects and
functions, where it can throw. -/
def toNumber (c : Coercions) : Value → Except JSError JSNum
  | .undefined => .ok .nan
  | .null => .ok (.fin 0)
  | .bool true => .ok (.fin 1)
  | .bool false => .ok (.fin 0)
  | .num n => .ok n
  | .str s => .ok (c.stringToNumber s)
  | v => c.objectToNumber v

/-- The comparison `a <= b` on numbers: false when either side is NaN. -/
def JSNum.le : JSNum → JSNum → Bool
  | .nan, _ => false
  | _, .nan => false
  | .negInf, _ => true
  | _, .posInf => true
  | .posInf, _ => false
  | _, .negInf => false
  | .negZero, .negZero => true
  | .negZero, .fin q => decide (0 ≤ q)
  | .fin p, .negZero => decide (p ≤ 0)
  | .fin p, .fin q => decide (p ≤ q)

/-- The filter condition `data.gen && data.gen <= 3`, on the value read from `data.gen`:
a falsy value decides it without a comparison; otherwise the value is converted to a
number, which can throw, and compared with 3. -/
def genOk (c : Coercions) (gen : Value) : Except JSError Bool :=
  if truthy gen then do
    let n ← toNumber c gen
    pure (JSNum.le n (.fin 3))
  else
    pure false

/-- The object literal passed to `sanitize` for an included entry. -/
def project (id : String) (data : Value) : Except JSError Value := do
  let name ← getProp data "name"
  let type ← getProp data "type"
  let category ← getProp data "category"
  let basePower ← getProp data "basePower"
  let accuracy ← getProp data "accuracy"
  let pp ← getProp data "pp"
  let priority ← getProp data "priority"
  let flags ← getProp data "flags"
  pure (.obj [("id", .str id), ("name", name), ("type", type), ("category", category),
    ("basePower", basePower), ("accuracy", accuracy), ("pp", pp), ("priority", priority),
    ("flags", flags)])

/-- One iteration of the loop over `Object.entries(allMoves)`. -/
def plainStep (c : Coercions) (plain : Obj) (e : String × Value) : Except JSError Obj := do
  let gen ← getProp e.2 "gen"
  let keep ← genOk c gen
  if keep then
    let literal ← project e.1 e.2
    pure (setProp plain e.1 (sanitize literal))
  else
    pure plain

/-- The table `plain` after the loop, or the exception that stopped the script. -/
def plain (c : Coercions) (allMoves : Obj) : Except JSError Obj :=
  allMoves.foldlM (plainStep c) []

/-- The number printed on success: `Object.keys(plain).length`.  Creating the directory
and writing the file happen between the loop and the report and are not modelled; the
report is reached when they succeed. -/
def reportedCount (c : Coercions) (allMoves : Obj) : Except JSError Nat := do
  let p ← plain c allMoves
  pure (keys p).length

/-! ## The loop in closed form -/

/-- The entries `sanitize` keeps, each with its sanitized value: those whose value is not a
function and whose key is not `__proto__`. -/
def keptEntries (es : Obj) : Obj :=
  (es.filter (fun e => !isFn e.2 && decide (e.1 ≠ "__proto__"))).map
    (fun e => (e.1, sanitize e.2))

/-- The values on which a property read throws. -/
def isNullish : Value → Bool
  | .undefined => true
  | .null => true
  | _ => false

/-- No entry of the table is `undefined` or `null`: the loop reads `data.gen` of every one. -/
def noNullishData (t : Obj) : Bool := t.all (fun e => !isNullish e.2)

/-- The value the read `data.k` yields on data that is not nullish. -/
def field (data : Value) (k : String) : Value :=
  match getProp data k with
  | .ok v => v
  | .error _ => .undefined

/-- The filter condition throws for no entry of the table: every `gen` that is compared
with 3 can be converted to a number. -/
def coercible (c : Coercions) (t : Obj) : Bool :=
  t.all (fun e =>
    match genOk c (field e.2 "gen") with
    | .ok _ => true
    | .error _ => false)

/-- The filter condition of the loop, on the data of an entry, when it does not throw. -/
def included (c : Coercions) (data : Value) : Bool :=
  match genOk c (field data "gen") with
  | .ok keep => keep
  | .error _ => false

/-- The eight names the projection reads from the source record. -/
def projectedNames : List String :=
  ["name", "type", "category", "basePower", "accuracy", "pp", "priority", "flags"]

/-- The nine names of the allow-list. -/
def allowList : List String := "id" :: projectedNames

/-- The object literal of the projection, on data that is not nullish. -/
def literal (id : String) (data : Value) : Obj :=
  ("id", .str id) :: projectedNames.map (fun k => (k, field data k))

/-- The record built for an included entry, the right-hand side of `plain[id] = ...`. -/
def record (id : String) (data : Value) : Value := sanitize (.obj (literal id data))

/-- The loop body without the exceptions: for entries on which nothing throws. -/
def pureStep (c : Coercions) (acc : Obj) (e : String × Value) : Obj :=
  if included c e.2 then setProp acc e.1 (record e.1 e.2) else acc

/-- The entries of `plain` in closed form: the included entries whose key is not
`__proto__`, each with its record. -/
def selected (c : Coercions) (t : Obj) : Obj :=
  (t.filter (fun e => included c e.2 && decide (e.1 ≠ "__proto__"))).map
    (fun e => (e.1, record e.1 e.2))

/-- A sample choice of the runtime coercions, for evaluating the script on concrete
tables: every string and every object converts to NaN, except an object whose own
`toString` is `null`, whose conversion throws. -/
def sampleCoercions : Coercions :=
  ⟨fun _ => .nan, fun v =>
    match v with
    | .obj es =>
      match es.lookup "toString" with
      | some .null => .error .typeError
      | _ => .ok .nan
    | _ => .ok .nan⟩

/-! ## Serialisation and the report -/

/-- The JSON document written to `data/moves.json`, as a tree.  Its rendering as text
(two-space indentation, string escapes, number formatting) is not modelled. -/
inductive Json where
  | null
  | bool (b : Bool)
  | num (q : ℚ)
  | str (s : String)
  | arr (elems : List Json)
  | obj (members : List (String × Json))

mutual
/-- The built-in `JSON.stringify` on a value tree (`SerializeJSONProperty`): `none` stands
for the result `undefined`, which `undefined` and functions yield; a number that is not
finite is written `null`, and negative zero is written `0`.  The built-in throws only on
cyclic structures and on BigInt values, neither of which a value tree can hold. -/
def serialize : Value → Option Json
  | .undefined => none
  | .fn _ => none
  | .null => some .null
  | .bool b => some (.bool b)
  | .num (.fin q) => some (.num q)
  | .num .negZero => some (.num 0)
  | .num _ => some .null
  | .str s => some (.str s)
  | .arr xs => some (.arr (serializeElems xs))
  | .obj es => some (.obj (serializeEntries es))
/-- The elements of an array: an element without a JSON form is written `null`. -/
def serializeElems : List Value → List Json
  | [] => []
  | x :: xs =>
    (match serialize x with
      | some j => j
      | none => .null) :: serializeElems xs
/-- The members of an object: a property without a JSON form is left out. -/
def serializeEntries : List (String × Value) → List (String × Json)
  | [] => []
  | (k, v) :: rest =>
    match serialize v with
    | some j => (k, j) :: serializeEntries rest
    | none => serializeEntries rest
end

/-- The script from the loop to the report: build `plain`, serialise it with
`JSON.stringify(plain, null, 2)`, write the file and print the count.  The result is the
document written and the count printed.  Creating the directory and writing the file are
taken to succeed; `fs.writeFileSync` throws a `TypeError` when handed `undefined`. -/
def run (c : Coercions) (allMoves : Obj) : Except JSError (Json × Nat) := do
  let p ← plain c allMoves
  match serialize (.obj p) with
  | some document => pure (document, (keys p).length)
  | none => throw .typeError

/-- The numbers JSON can write: every number but NaN and the infinities. -/
def JSNum.isFinite : JSNum → Bool
  | .nan => false
  | .posInf => false
  | .negInf => false
  | _ => true

/-- One step into a value or a document: the property `k` of an object, or the element at
index `i` of an array. -/
inductive Step where
  | key (k : String)
  | index (i : Nat)

/-- The value reached from `v` along a path of own properties and array elements. -/
def valueAt : List Step → Value → Option Value
  | [], v => some v
  | .key k :: p, .obj es =>
    match es.lookup k with
    | some v => valueAt p v
    | none => none
  | .index i :: p, .arr xs =>
    match xs[i]? with
    | some v => valueAt p v
    | none => none
  | _, _ => none

/-- The part of a document reached along a path of members and array elements. -/
def jsonAt : List Step → Json → Option Json
  | [], j => some j
  | .key k :: p, .obj ms =>
    match ms.lookup k with
    | some j => jsonAt p j
    | none => none
  | .index i :: p, .arr js =>
    match js[i]? with
    | some j => jsonAt p j
    | none => none
  | _, _ => none

/-! ## Measures of a value -/

mutual
/-- The number of nodes of a value tree. -/
def size : Value → Nat
  | .arr xs => 1 + sizeElems xs
  | .obj es => 1 + sizeEntries es
  | _ => 1
/-- The number of nodes of the elements. -/
def sizeElems : List Value → Nat
  | [] => 0
  | x :: xs => size x + sizeElems xs
/-- The number of nodes of the property values. -/
def sizeEntries : List (String × Value) → Nat
  | [] => 0
  | (_, v) :: rest => size v + sizeEntries rest
end

mutual
/-- The nesting depth of a value tree: 0 for a scalar or a function, one more than the
deepest child for an array or an object. -/
def depth : Value → Nat
  | .arr xs => 1 + depthElems xs
  | .obj es => 1 + depthEntries es
  | _ => 0
/-- The depth of the deepest element. -/
def depthElems : List Value → Nat
  | [] => 0
  | x :: xs => max (depth x) (depthElems xs)
/-- The depth of the deepest property value. -/
def depthEntries : List (String × Value) → Nat
  | [] => 0
  | (_, v) :: rest => max (depth v) (depthEntries rest)
end

/-- The array nested in itself `n` times around an empty array: `[]`, `[[]]`, ... -/
def deepArray : Nat → Value
  | 0 => .arr []
  | n + 1 => .arr [deepArray n]

/-! ## The filter as the specification words it, and sample inputs -/

/-- The filter in the words of the specification: the generation attribute of the record
is present and numerically at most 3. -/
def specGenOk (c : Coercions) (data : Value) : Bool :=
  match data with
  | .obj es =>
    match es.lookup "gen" with
    | some gen =>
      match toNumber c gen with
      | .ok n => JSNum.le n (.fin 3)
      | .error _ => false
    | none => false
  | _ => false

/-- The example scenario of the specification: `tackle` in full, `dragonBreath` with
generation 3 and `futureGen` with generation 4; the fields the specification leaves open
are parameters. -/
def exampleTable (dragonBreathRest futureGenRest : Obj) : Obj :=
  [("tackle", .obj [("gen", .num (.fin 1)), ("name", .str "Tackle"), ("type", .str "Normal"),
      ("category", .str "Physical"), ("basePower", .num (.fin 40)),
      ("accuracy", .num (.fin 100)), ("pp", .num (.fin 35)), ("priority", .num (.fin 0)),
      ("flags", .obj [("contact", .bool true)])]),
   ("dragonBreath", .obj (("gen", .num (.fin 3)) :: dragonBreathRest)),
   ("futureGen", .obj (("gen", .num (.fin 4)) :: ("name", .str "X") :: futureGenRest))]

/-- A table with one move of generation exactly 0. -/
def zeroGenTable : Obj :=
  [("zero", .obj [("gen", .num (.fin 0)), ("name", .str "Zero")])]

/-- A table with one generation-1 move whose `name` is a function. -/
def fnNameTable : Obj :=
  [("growl", .obj [("gen", .num (.fin 1)), ("name", .fn 0), ("pp", .num (.fin 40))])]

/-- A table with one generation-1 move whose `flags` is an array holding a function. -/
def fnInFlagsTable : Obj :=
  [("growl", .obj [("gen", .num (.fin 1)), ("name", .str "Growl"), ("flags", .arr [.fn 0])])]

/-- A table of two moves, generations 2 and 5, the first with a field outside the
allow-list. -/
def twoMoveTable : Obj :=
  [("surf", .obj [("gen", .num (.fin 2)), ("name", .str "Surf"), ("recoil", .num (.fin 1))]),
   ("roost", .obj [("gen", .num (.fin 5)), ("name", .str "Roost")])]

/-- The table `twoMoveTable` with other values in fields outside the allow-list. -/
def twoMoveTableAlt : Obj :=
  [("surf", .obj [("gen", .num (.fin 2)), ("name", .str "Surf"), ("heal", .num (.fin 7))]),
   ("roost", .obj [("gen", .num (.fin 5)), ("name", .str "Roost"), ("multihit", .num (.fin 2))])]

/-- A table of two generation-1 moves, the first under the own key `__proto__`. -/
def protoKeyTable : Obj :=
  [("__proto__", .obj [("gen", .num (.fin 1)), ("name", .str "Hidden")]),
   ("tackle", .obj [("gen", .num (.fin 1)), ("name", .str "Tackle")])]

/-- An object with a function-valued key next to nested data that holds more of them. -/
def mixedEntries : Obj :=
  [("onHit", .fn 0), ("power", .num (.fin 40)),
   ("nested", .arr [.obj [("callback", .fn 1), ("contact", .bool true)]])]

/-- An object without functions that holds data under the own key `__proto__`. -/
def protoKeyEntries : Obj :=
  [("__proto__", .obj [("a", .num (.fin 1))]), ("b", .num (.fin 2))]

/-- A value without functions: scalars, an array and nested objects. -/
def dataOnlyValue : Value :=
  .obj [("name", .str "Tackle"), ("accuracy", .bool true), ("target", .null),
    ("flags", .obj [("contact", .num (.fin 1))]), ("hits", .arr [.num (.fin 2), .undefined])]

/-- A table with one generation-1 move whose `basePower` is NaN, whose `accuracy` is
Infinity and whose `flags` hold a NaN two levels down. -/
def nanPowerTable : Obj :=
  [("struggle", .obj [("gen", .num (.fin 1)), ("name", .str "Struggle"),
      ("type", .str "Normal"), ("category", .str "Physical"), ("basePower", .num .nan),
      ("accuracy", .num .posInf), ("pp", .num (.fin 1)), ("priority", .num (.fin 0)),
      ("flags", .obj [("hits", .arr [.num (.fin 2), .num .nan])])])]

/-- A table with one generation-2 move whose `type` is a function and that has no `pp`. -/
def fnTypeTable : Obj :=
  [("curse", .obj [("gen", .num (.fin 2)), ("name", .str "Curse"), ("type", .fn 7),
      ("flags", .obj [])])]

/-- A value with functions as property values and as array elements, and with nesting. -/
def nestedValue : Value :=
  .obj [("onHit", .fn 0), ("power", .num (.fin 40)),
    ("nested", .arr [.fn 2, .obj [("callback", .fn 1), ("contact", .bool true)]])]

/-! # Proofs -/

/-! ## Lemmas on `setProp` and the loops of `sanitize` -/

theorem keys_setOwn_of_mem (o : Obj) (k : String) (v : Value) (h : k ∈ keys o) :
    keys (setOwn o k v) = keys o := by
  induction o with
  | nil => simp [keys] at h
  | cons e rest ih =>
    obtain ⟨k0, v0⟩ := e
    by_cases hk : k0 = k
    · simp [setOwn, hk, keys]
    · have hmem : k ∈ keys rest := by
        simp only [keys, List.map_cons, List.mem_cons] at h
        rcases h with h | h
        · exact absurd h.symm hk
        · exact h
      have := ih hmem
      simp only [keys] at this
      simp [setOwn, hk, keys, this]

theorem setOwn_of_not_mem (o : Obj) (k : String) (v : Value) (h : k ∉ keys o) :
    setOwn o k v = o ++ [(k, v)] := by
  induction o with
  | nil => rfl
  | cons e rest ih =>
    obtain ⟨k0, v0⟩ := e
    simp only [keys, List.map_cons, List.mem_cons, not_or] at h
    have hk : ¬ k0 = k := fun h0 => h.1 h0.symm
    simp [setOwn, hk, ih h.2]

theorem setProp_proto (o : Obj) (v : Value) : setProp o "__proto__" v = o := by
  simp [setProp]

theorem setProp_of_ne (o : Obj) (k : String) (v : Value) (hk : k ≠ "__proto__") :
    setProp o k v = setOwn o k v := by
  simp [setProp, hk]

theorem setProp_of_not_mem (o : Obj) (k : String) (v : Value) (hk : k ≠ "__proto__")
    (h : k ∉ keys o) : setProp o k v = o ++ [(k, v)] := by
  rw [setProp_of_ne o k v hk, setOwn_of_not_mem o k v h]

theorem sanitizeElems_eq_map (xs : List Value) : sanitizeElems xs = xs.map sanitize := by
  induction xs with
  | nil => rfl
  | cons x xs ih => simp [sanitizeElems, ih]

theorem keptEntries_cons_of_kept (k : String) (v : Value) (rest : Obj)
    (hf : isFn v = false) (hk : k ≠ "__proto__") :
    keptEntries ((k, v) :: rest) = (k, sanitize v) :: keptEntries rest := by
  simp [keptEntries, List.filter_cons, hf, hk]

theorem keptEntries_cons_of_fn (k : String) (v : Value) (rest : Obj) (hf : isFn v = true) :
    keptEntries ((k, v) :: rest) = keptEntries rest := by
  simp [keptEntries, List.filter_cons, hf]

theorem keptEntries_cons_of_proto (v : Value) (rest : Obj) :
    keptEntries (("__proto__", v) :: rest) = keptEntries rest := by
  simp [keptEntries, List.filter_cons]

theorem keys_keptEntries_sublist (es : Obj) : (keys (keptEntries es)).Sublist (keys es) := by
  have : keys (keptEntries es) =
      (es.filter (fun e => !isFn e.2 && decide (e.1 ≠ "__proto__"))).map Prod.fst := by
    simp [keys, keptEntries, List.map_map, Function.comp_def]
  rw [this]
  exact (List.filter_sublist es).map Prod.fst

theorem keys_keptEntries_subset (es : Obj) (k : String) (h : k ∈ keys (keptEntries es)) :
    k ∈ keys es :=
  (keys_keptEntries_sublist es).subset h

theorem sanitizeEntries_eq_append (es : Obj) :
    ∀ out : Obj, (keys es).Nodup → (∀ k ∈ keys es, k ∉ keys out) →
      sanitizeEntries es out = out ++ keptEntries es := by
  induction es with
  | nil => intro out _ _; simp [sanitizeEntries, keptEntries]
  | cons e rest ih =>
    intro out hnd hdis
    obtain ⟨k, v⟩ := e
    simp only [keys, List.map_cons, List.nodup_cons] at hnd
    have hk : k ∉ keys out := hdis k (by simp [keys])
    have hrest : ∀ k1 ∈ keys rest, k1 ∉ keys out := fun k1 h1 =>
      hdis k1 (by simp only [keys, List.map_cons, List.mem_cons]; exact Or.inr h1)
    by_cases hf : isFn v = true
    · simp only [sanitizeEntries, hf, if_true]
      rw [ih out hnd.2 hrest, keptEntries_cons_of_fn k v rest hf]
    · have hf0 : isFn v = false := by simpa using hf
      simp only [sanitizeEntries, hf0, Bool.false_eq_true, if_false]
      by_cases hp : k = "__proto__"
      · subst hp
        rw [setProp_proto, ih out hnd.2 hrest, keptEntries_cons_of_proto]
      · rw [setProp_of_not_mem out k _ hp hk, ih (out ++ [(k, sanitize v)]) hnd.2,
          keptEntries_cons_of_kept k v rest hf0 hp]
        · simp
        · intro k1 h1 hmem
          simp only [keys, List.map_append, List.map_cons, List.map_nil, List.mem_append,
            List.mem_singleton] at hmem
          rcases hmem with hmem | hmem
          · exact hrest k1 h1 hmem
          · exact hnd.1 (hmem ▸ h1)

theorem sanitize_obj_of_nodup (es : Obj) (hnd : keysNodup es = true) :
    sanitize (.obj es) = .obj (keptEntries es) := by
  simp only [sanitize]
  rw [sanitizeEntries_eq_append es [] (by simpa [keysNodup] using hnd) (by simp [keys])]
  simp

/-! ## What `sanitize` leaves behind -/

theorem isFn_sanitize (v : Value) : isFn (sanitize v) = isFn v := by
  cases v <;> rfl

theorem fnKeyFreeEntries_setOwn (o : Obj) (k : String) (v : Value)
    (ho : fnKeyFreeEntries o = true) (hf : isFn v = false) (hv : fnKeyFree v = true) :
    fnKeyFreeEntries (setOwn o k v) = true := by
  induction o with
  | nil => simp [setOwn, fnKeyFreeEntries, hf, hv]
  | cons e rest ih =>
    obtain ⟨k0, v0⟩ := e
    simp only [fnKeyFreeEntries, Bool.and_eq_true] at ho
    by_cases hk : k0 = k
    · simp [setOwn, hk, fnKeyFreeEntries, hf, hv, ho.2]
    · simp [setOwn, hk, fnKeyFreeEntries, ho.1.1, ho.1.2, ih ho.2]

theorem fnKeyFreeEntries_setProp (o : Obj) (k : String) (v : Value)
    (ho : fnKeyFreeEntries o = true) (hf : isFn v = false) (hv : fnKeyFree v = true) :
    fnKeyFreeEntries (setProp o k v) = true := by
  by_cases hk : k = "__proto__"
  · simpa [setProp, hk] using ho
  · rw [setProp_of_ne o k v hk]
    exact fnKeyFreeEntries_setOwn o k v ho hf hv

mutual
theorem fnKeyFree_sanitize : ∀ v : Value, fnKeyFree (sanitize v) = true
  | .arr xs => by
    simp only [sanitize, fnKeyFree]
    exact fnKeyFreeElems_sanitizeElems xs
  | .obj es => by
    simp only [sanitize, fnKeyFree]
    exact fnKeyFreeEntries_sanitizeEntries es [] rfl
  | .undefined => rfl
  | .null => rfl
  | .bool _ => rfl
  | .num _ => rfl
  | .str _ => rfl
  | .fn _ => rfl
theorem fnKeyFreeElems_sanitizeElems : ∀ xs : List Value,
    fnKeyFreeElems (sanitizeElems xs) = true
  | [] => rfl
  | x :: xs => by
    simp only [sanitizeElems, fnKeyFreeElems, Bool.and_eq_true]
    exact ⟨fnKeyFree_sanitize x, fnKeyFreeElems_sanitizeElems xs⟩
theorem fnKeyFreeEntries_sanitizeEntries : ∀ (es : List (String × Value)) (out : Obj),
    fnKeyFreeEntries out = true → fnKeyFreeEntries (sanitizeEntries es out) = true
  | [], out, h => by simpa [sanitizeEntries] using h
  | (k, v) :: rest, out, h => by
    by_cases hf : isFn v = true
    · simp only [sanitizeEntries, hf, if_true]
      exact fnKeyFreeEntries_sanitizeEntries rest out h
    · simp only [sanitizeEntries, hf]
      apply fnKeyFreeEntries_sanitizeEntries rest
      apply fnKeyFreeEntries_setProp out k _ h
      · rw [isFn_sanitize]; simpa using hf
      · exact fnKeyFree_sanitize v
end

theorem keysNodup_setProp (o : Obj) (k : String) (v : Value) (h : keysNodup o = true) :
    keysNodup (setProp o k v) = true := by
  have h0 : (keys o).Nodup := by simpa [keysNodup] using h
  by_cases hp : k = "__proto__"
  · simpa [setProp, hp] using h
  · rw [setProp_of_ne o k v hp]
    by_cases hk : k ∈ keys o
    · simpa [keysNodup, keys_setOwn_of_mem o k v hk] using h0
    · rw [setOwn_of_not_mem o k v hk]
      simp only [keysNodup, keys, List.map_append, List.map_cons, List.map_nil,
        decide_eq_true_eq]
      apply List.Nodup.append h0 (List.nodup_singleton k)
      intro a ha hb
      rw [List.mem_singleton] at hb
      exact hk (hb ▸ ha)

theorem wellFormedEntries_setProp (o : Obj) (k : String) (v : Value)
    (ho : wellFormedEntries o = true) (hv : wellFormed v = true) :
    wellFormedEntries (setProp o k v) = true := by
  by_cases hp : k = "__proto__"
  · simpa [setProp, hp] using ho
  · rw [setProp_of_ne o k v hp]
    clear hp
    induction o with
    | nil => simp [setOwn, wellFormedEntries, hv]
    | cons e rest ih =>
      obtain ⟨k0, v0⟩ := e
      simp only [wellFormedEntries, Bool.and_eq_true] at ho
      by_cases hk : k0 = k
      · simp [setOwn, hk, wellFormedEntries, hv, ho.2]
      · simp [setOwn, hk, wellFormedEntries, ho.1, ih ho.2]

theorem protoFreeEntries_setProp (o : Obj) (k : String) (v : Value)
    (ho : protoFreeEntries o = true) (hv : protoFree v = true) :
    protoFreeEntries (setProp o k v) = true := by
  by_cases hp : k = "__proto__"
  · simpa [setProp, hp] using ho
  · rw [setProp_of_ne o k v hp]
    induction o with
    | nil => simp [setOwn, protoFreeEntries, hv, hp]
    | cons e rest ih =>
      obtain ⟨k0, v0⟩ := e
      simp only [protoFreeEntries, Bool.and_eq_true, decide_eq_true_eq] at ho
      by_cases hk : k0 = k
      · simp [setOwn, hk, protoFreeEntries, hv, ho.2, hp]
      · simp [setOwn, hk, protoFreeEntries, ho.1.1, ho.1.2, ih ho.2]

mutual
theorem wellFormed_sanitize : ∀ v : Value, wellFormed (sanitize v) = true
  | .arr xs => by
    simp only [sanitize, wellFormed]
    exact wellFormedElems_sanitizeElems xs
  | .obj es => by
    simp only [sanitize, wellFormed, Bool.and_eq_true]
    exact wellFormedEntries_sanitizeEntries es [] rfl rfl
  | .undefined => rfl
  | .null => rfl
  | .bool _ => rfl
  | .num _ => rfl
  | .str _ => rfl
  | .fn _ => rfl
theorem wellFormedElems_sanitizeElems : ∀ xs : List Value,
    wellFormedElems (sanitizeElems xs) = true
  | [] => rfl
  | x :: xs => by
    simp only [sanitizeElems, wellFormedElems, Bool.and_eq_true]
    exact ⟨wellFormed_sanitize x, wellFormedElems_sanitizeElems xs⟩
theorem wellFormedEntries_sanitizeEntries : ∀ (es : List (String × Value)) (out : Obj),
    keysNodup out = true → wellFormedEntries out = true →
      keysNodup (sanitizeEntries es out) = true ∧
        wellFormedEntries (sanitizeEntries es out) = true
  | [], out, h1, h2 => by simpa [sanitizeEntries] using ⟨h1, h2⟩
  | (k, v) :: rest, out, h1, h2 => by
    by_cases hf : isFn v = true
    · simp only [sanitizeEntries, hf, if_true]
      exact wellFormedEntries_sanitizeEntries rest out h1 h2
    · simp only [sanitizeEntries, hf]
      exact wellFormedEntries_sanitizeEntries rest _ (keysNodup_setProp out k _ h1)
        (wellFormedEntries_setProp out k _ h2 (wellFormed_sanitize v))
end

mutual
theorem protoFree_sanitize : ∀ v : Value, protoFree (sanitize v) = true
  | .arr xs => by
    simp only [sanitize, protoFree]
    exact protoFreeElems_sanitizeElems xs
  | .obj es => by
    simp only [sanitize, protoFree]
    exact protoFreeEntries_sanitizeEntries es [] rfl
  | .undefined => rfl
  | .null => rfl
  | .bool _ => rfl
  | .num _ => rfl
  | .str _ => rfl
  | .fn _ => rfl
theorem protoFreeElems_sanitizeElems : ∀ xs : List Value,
    protoFreeElems (sanitizeElems xs) = true
  | [] => rfl
  | x :: xs => by
    simp only [sanitizeElems, protoFreeElems, Bool.and_eq_true]
    exact ⟨protoFree_sanitize x, protoFreeElems_sanitizeElems xs⟩
theorem protoFreeEntries_sanitizeEntries : ∀ (es : List (String × Value)) (out : Obj),
    protoFreeEntries out = true → protoFreeEntries (sanitizeEntries es out) = true
  | [], out, h => by simpa [sanitizeEntries] using h
  | (k, v) :: rest, out, h => by
    by_cases hf : isFn v = true
    · simp only [sanitizeEntries, hf, if_true]
      exact protoFreeEntries_sanitizeEntries rest out h
    · simp only [sanitizeEntries, hf]
      exact protoFreeEntries_sanitizeEntries rest _
        (protoFreeEntries_setProp out k _ h (protoFree_sanitize v))
end

/-! ## Values that `sanitize` returns unchanged -/

theorem isFn_of_hasFn_false (v : Value) (h : hasFn v = false) : isFn v = false := by
  cases v <;> simp_all [hasFn, isFn]

mutual
theorem fnKeyFree_of_hasFn_false : ∀ v : Value, hasFn v = false → fnKeyFree v = true
  | .arr xs, h => by
    simp only [hasFn] at h
    simp only [fnKeyFree, fnKeyFreeElems_of_hasFn_false xs h]
  | .obj es, h => by
    simp only [hasFn] at h
    simp only [fnKeyFree, fnKeyFreeEntries_of_hasFn_false es h]
  | .undefined, _ => rfl
  | .null, _ => rfl
  | .bool _, _ => rfl
  | .num _, _ => rfl
  | .str _, _ => rfl
  | .fn _, _ => rfl
theorem fnKeyFreeElems_of_hasFn_false : ∀ xs : List Value,
    hasFnElems xs = false → fnKeyFreeElems xs = true
  | [], _ => rfl
  | x :: xs, h => by
    simp only [hasFnElems, Bool.or_eq_false_iff] at h
    simp only [fnKeyFreeElems, fnKeyFree_of_hasFn_false x h.1,
      fnKeyFreeElems_of_hasFn_false xs h.2, Bool.and_self]
theorem fnKeyFreeEntries_of_hasFn_false : ∀ es : List (String × Value),
    hasFnEntries es = false → fnKeyFreeEntries es = true
  | [], _ => rfl
  | (k, v) :: rest, h => by
    simp only [hasFnEntries, Bool.or_eq_false_iff] at h
    simp [fnKeyFreeEntries, isFn_of_hasFn_false v h.1, fnKeyFree_of_hasFn_false v h.1,
      fnKeyFreeEntries_of_hasFn_false rest h.2]
end

mutual
theorem sanitize_eq_self_of_fnKeyFree : ∀ v : Value,
    wellFormed v = true → protoFree v = true → fnKeyFree v = true → sanitize v = v
  | .arr xs, hw, hp, hf => by
    simp only [wellFormed] at hw
    simp only [protoFree] at hp
    simp only [fnKeyFree] at hf
    simp only [sanitize, sanitizeElems_eq_self_of_fnKeyFree xs hw hp hf]
  | .obj es, hw, hp, hf => by
    simp only [wellFormed, Bool.and_eq_true] at hw
    simp only [protoFree] at hp
    simp only [fnKeyFree] at hf
    rw [sanitize_obj_of_nodup es hw.1, keptEntries_eq_self_of_fnKeyFree es hw.2 hp hf]
  | .undefined, _, _, _ => rfl
  | .null, _, _, _ => rfl
  | .bool _, _, _, _ => rfl
  | .num _, _, _, _ => rfl
  | .str _, _, _, _ => rfl
  | .fn _, _, _, _ => rfl
theorem sanitizeElems_eq_self_of_fnKeyFree : ∀ xs : List Value,
    wellFormedElems xs = true → protoFreeElems xs = true → fnKeyFreeElems xs = true →
      sanitizeElems xs = xs
  | [], _, _, _ => rfl
  | x :: xs, hw, hp, hf => by
    simp only [wellFormedElems, Bool.and_eq_true] at hw
    simp only [protoFreeElems, Bool.and_eq_true] at hp
    simp only [fnKeyFreeElems, Bool.and_eq_true] at hf
    simp only [sanitizeElems, sanitize_eq_self_of_fnKeyFree x hw.1 hp.1 hf.1,
      sanitizeElems_eq_self_of_fnKeyFree xs hw.2 hp.2 hf.2]
theorem keptEntries_eq_self_of_fnKeyFree : ∀ es : List (String × Value),
    wellFormedEntries es = true → protoFreeEntries es = true → fnKeyFreeEntries es = true →
      keptEntries es = es
  | [], _, _, _ => rfl
  | (k, v) :: rest, hw, hp, hf => by
    simp only [wellFormedEntries, Bool.and_eq_true] at hw
    simp only [protoFreeEntries, Bool.and_eq_true, decide_eq_true_eq] at hp
    simp only [fnKeyFreeEntries, Bool.and_eq_true, Bool.not_eq_true'] at hf
    rw [keptEntries_cons_of_kept k v rest hf.1.1 hp.1.1,
      sanitize_eq_self_of_fnKeyFree v hw.1 hp.1.2 hf.1.2,
      keptEntries_eq_self_of_fnKeyFree rest hw.2 hp.2 hf.2]
end

theorem sanitize_eq_self (v : Value) (hw : wellFormed v = true) (hp : protoFree v = true)
    (hf : hasFn v = false) : sanitize v = v :=
  sanitize_eq_self_of_fnKeyFree v hw hp (fnKeyFree_of_hasFn_false v hf)

/-! ## Lookup in association lists -/

theorem hasOwn_iff_mem_keys (o : Obj) (k : String) : hasOwn o k = true ↔ k ∈ keys o := by
  induction o with
  | nil => simp [hasOwn, keys]
  | cons e rest ih =>
    obtain ⟨k0, v0⟩ := e
    by_cases hk : k = k0
    · subst hk
      simp [hasOwn, keys, List.lookup_cons]
    · have hb : (k == k0) = false := by simpa using hk
      simp only [hasOwn, List.lookup_cons, hb, keys, List.map_cons, List.mem_cons, hk,
        false_or]
      simp [hasOwn, keys] at ih
      simp [ih]

theorem hasOwn_eq_false_iff (o : Obj) (k : String) : hasOwn o k = false ↔ k ∉ keys o := by
  rw [← hasOwn_iff_mem_keys]
  simp

theorem lookup_of_mem_nodup {β : Type} (o : List (String × β))
    (hnd : (o.map Prod.fst).Nodup) (k : String) (v : β) (h : (k, v) ∈ o) :
    o.lookup k = some v := by
  induction o with
  | nil => simp at h
  | cons e rest ih =>
    obtain ⟨k0, v0⟩ := e
    simp only [List.map_cons, List.nodup_cons] at hnd
    simp only [List.mem_cons, Prod.mk.injEq] at h
    rcases h with ⟨hk, hv⟩ | h
    · subst hk; subst hv
      simp [List.lookup_cons]
    · have hne : k ≠ k0 := by
        intro hk
        subst hk
        exact hnd.1 (List.mem_map_of_mem Prod.fst h)
      have hb : (k == k0) = false := by simpa using hne
      simp only [List.lookup_cons, hb]
      exact ih hnd.2 h

theorem lookup_eq_none_of_not_mem (o : Obj) (k : String) (h : k ∉ keys o) :
    o.lookup k = none := by
  have := (hasOwn_eq_false_iff o k).mpr h
  simpa [hasOwn] using this

theorem mem_of_lookup_eq_some {β : Type} (l : List (String × β)) (k : String) (j : β)
    (h : l.lookup k = some j) : (k, j) ∈ l := by
  induction l with
  | nil => simp at h
  | cons e rest ih =>
    obtain ⟨k0, v0⟩ := e
    by_cases hk : k = k0
    · subst hk
      simp only [List.lookup_cons, beq_self_eq_true, Option.some.injEq] at h
      simp [h]
    · have hb : (k == k0) = false := by simpa using hk
      simp only [List.lookup_cons, hb] at h
      exact List.mem_cons_of_mem _ (ih h)

theorem mem_keys_of_lookup_eq_some {β : Type} (l : List (String × β)) (k : String) (j : β)
    (h : l.lookup k = some j) : k ∈ l.map Prod.fst :=
  List.mem_map_of_mem Prod.fst (mem_of_lookup_eq_some l k j h)

/-! ## The entries `sanitize` keeps -/

theorem mem_keptEntries (es : Obj) (k : String) (x : Value) (h : (k, x) ∈ es)
    (hf : isFn x = false) (hk : k ≠ "__proto__") : (k, sanitize x) ∈ keptEntries es := by
  simp only [keptEntries, List.mem_map, List.mem_filter]
  exact ⟨(k, x), ⟨h, by simp [hf, hk]⟩, rfl⟩

theorem mem_keptEntries_iff (es : Obj) (k : String) (y : Value) :
    (k, y) ∈ keptEntries es ↔
      ∃ x, (k, x) ∈ es ∧ isFn x = false ∧ k ≠ "__proto__" ∧ y = sanitize x := by
  simp only [keptEntries, List.mem_map, List.mem_filter, Prod.mk.injEq, Prod.exists,
    Bool.and_eq_true, Bool.not_eq_true', decide_eq_true_eq]
  constructor
  · rintro ⟨k1, x, ⟨hmem, hf, hk⟩, hk1, hy⟩
    subst hk1
    exact ⟨x, hmem, hf, hk, hy.symm⟩
  · rintro ⟨x, hmem, hf, hk, hy⟩
    exact ⟨k, x, ⟨hmem, hf, hk⟩, rfl, hy.symm⟩

theorem not_mem_keys_keptEntries (es : Obj) (hnd : (keys es).Nodup) (k : String) (x : Value)
    (h : (k, x) ∈ es) (hdrop : isFn x = true ∨ k = "__proto__") :
    k ∉ keys (keptEntries es) := by
  intro hmem
  simp only [keys, List.mem_map, Prod.exists, exists_and_right, exists_eq_right] at hmem
  obtain ⟨y, hy⟩ := hmem
  obtain ⟨x1, hx1, hf, hk, _⟩ := (mem_keptEntries_iff es k y).mp hy
  have h1 := lookup_of_mem_nodup es hnd k x h
  have h2 := lookup_of_mem_nodup es hnd k x1 hx1
  have hx : x = x1 := by
    rw [h1] at h2
    exact Option.some.inj h2
  subst hx
  rcases hdrop with hd | hd
  · rw [hd] at hf
    exact Bool.noConfusion hf
  · exact hk hd

/-! ## The loop over the table in closed form -/

theorem getProp_of_not_nullish (data : Value) (k : String) (h : isNullish data = false) :
    getProp data k = .ok (field data k) := by
  cases data <;> simp_all [getProp, field, isNullish]

theorem project_of_not_nullish (id : String) (data : Value) (h : isNullish data = false) :
    project id data = .ok (.obj (literal id data)) := by
  simp only [project, getProp_of_not_nullish data _ h]
  rfl

theorem included_of_genOk (c : Coercions) (data : Value) (keep : Bool)
    (h : genOk c (field data "gen") = .ok keep) : included c data = keep := by
  simp only [included, h]

theorem plainStep_of_defined (c : Coercions) (acc : Obj) (e : String × Value)
    (h : isNullish e.2 = false) (keep : Bool) (hk : genOk c (field e.2 "gen") = .ok keep) :
    plainStep c acc e = .ok (pureStep c acc e) := by
  simp only [plainStep, getProp_of_not_nullish e.2 _ h, project_of_not_nullish e.1 e.2 h,
    pureStep, included_of_genOk c e.2 keep hk, record]
  show (do
    let keep ← genOk c (field e.2 "gen")
    if keep = true then _ else _) = _
  rw [hk]
  cases keep <;> rfl

theorem foldlM_plainStep (c : Coercions) (t : Obj) :
    ∀ acc : Obj, noNullishData t = true → coercible c t = true →
      t.foldlM (plainStep c) acc = .ok (t.foldl (pureStep c) acc) := by
  induction t with
  | nil => intro acc _ _; rfl
  | cons e rest ih =>
    intro acc h hco
    simp only [noNullishData, List.all_cons, Bool.and_eq_true, Bool.not_eq_true'] at h
    simp only [coercible, List.all_cons, Bool.and_eq_true] at hco
    have hok : ∃ keep, genOk c (field e.2 "gen") = .ok keep := by
      cases hg : genOk c (field e.2 "gen") with
      | ok keep => exact ⟨keep, rfl⟩
      | error err =>
        have := hco.1
        simp [hg] at this
    obtain ⟨keep, hkeep⟩ := hok
    simp only [List.foldlM_cons, List.foldl_cons, plainStep_of_defined c acc e h.1 keep hkeep]
    exact ih _ (by simpa [noNullishData] using h.2) (by simpa [coercible] using hco.2)

theorem selected_cons_of_stored (c : Coercions) (k : String) (d : Value) (rest : Obj)
    (hi : included c d = true) (hk : k ≠ "__proto__") :
    selected c ((k, d) :: rest) = (k, record k d) :: selected c rest := by
  simp [selected, List.filter_cons, hi, hk]

theorem selected_cons_of_skipped (c : Coercions) (k : String) (d : Value) (rest : Obj)
    (h : included c d = false ∨ k = "__proto__") :
    selected c ((k, d) :: rest) = selected c rest := by
  rcases h with h | h
  · simp [selected, List.filter_cons, h]
  · simp [selected, List.filter_cons, h]

theorem foldl_pureStep (c : Coercions) (t : Obj) :
    ∀ acc : Obj, (keys t).Nodup → (∀ k ∈ keys t, k ∉ keys acc) →
      t.foldl (pureStep c) acc = acc ++ selected c t := by
  induction t with
  | nil => intro acc _ _; simp [selected]
  | cons e rest ih =>
    intro acc hnd hdis
    obtain ⟨k, d⟩ := e
    simp only [keys, List.map_cons, List.nodup_cons] at hnd
    have hk : k ∉ keys acc := hdis k (by simp [keys])
    have hrest : ∀ k1 ∈ keys rest, k1 ∉ keys acc := fun k1 h1 =>
      hdis k1 (by simp only [keys, List.map_cons, List.mem_cons]; exact Or.inr h1)
    by_cases hi : included c d = true
    · simp only [List.foldl_cons, pureStep, hi, if_true]
      by_cases hp : k = "__proto__"
      · rw [hp, setProp_proto, ih acc hnd.2 hrest,
          selected_cons_of_skipped c "__proto__" d rest (Or.inr rfl)]
      · rw [setProp_of_not_mem acc k _ hp hk, ih _ hnd.2,
          selected_cons_of_stored c k d rest hi hp]
        · simp
        · intro k1 h1 hmem
          simp only [keys, List.map_append, List.map_cons, List.map_nil, List.mem_append,
            List.mem_singleton] at hmem
          rcases hmem with hmem | hmem
          · exact hrest k1 h1 hmem
          · exact hnd.1 (hmem ▸ h1)
    · have hi0 : included c d = false := by simpa using hi
      simp only [List.foldl_cons, pureStep, hi0, Bool.false_eq_true, if_false]
      rw [ih acc hnd.2 hrest, selected_cons_of_skipped c k d rest (Or.inl hi0)]

theorem plain_eq_selected (c : Coercions) (allMoves : Obj) (hnd : keysNodup allMoves = true)
    (hdata : noNullishData allMoves = true) (hco : coercible c allMoves = true) :
    plain c allMoves = .ok (selected c allMoves) := by
  simp only [plain, foldlM_plainStep c allMoves [] hdata hco]
  rw [foldl_pureStep c allMoves [] (by simpa [keysNodup] using hnd) (by simp [keys])]
  simp

/-! ## When the loop returns

The hypotheses `noNullishData` and `coercible` of the statements about `plain` are exactly
the condition for the loop to return. -/

theorem defined_of_plainStep_ok (c : Coercions) (acc acc1 : Obj) (e : String × Value)
    (h : plainStep c acc e = .ok acc1) :
    isNullish e.2 = false ∧ ∃ keep, genOk c (field e.2 "gen") = .ok keep := by
  cases hn : isNullish e.2 with
  | true =>
    exfalso
    have hg : getProp e.2 "gen" = .error .typeError := by
      cases hv : e.2 <;> simp_all [isNullish, getProp]
    simp only [plainStep, hg] at h
    exact Except.noConfusion h
  | false =>
    refine ⟨rfl, ?_⟩
    cases hk : genOk c (field e.2 "gen") with
    | ok keep => exact ⟨keep, rfl⟩
    | error err =>
      exfalso
      simp only [plainStep, getProp_of_not_nullish e.2 _ hn] at h
      have h1 : (do
          let keep ← genOk c (field e.2 "gen")
          if keep = true then do
            let literal ← project e.1 e.2
            pure (setProp acc e.1 (sanitize literal))
          else pure acc) = Except.ok acc1 := h
      rw [hk] at h1
      exact Except.noConfusion h1

theorem defined_of_foldlM_plainStep_ok (c : Coercions) (t : Obj) :
    ∀ acc out : Obj, t.foldlM (plainStep c) acc = .ok out →
      noNullishData t = true ∧ coercible c t = true := by
  induction t with
  | nil => intro _ _ _; exact ⟨rfl, rfl⟩
  | cons e rest ih =>
    intro acc out h
    simp only [List.foldlM_cons] at h
    cases hs : plainStep c acc e with
    | error err =>
      rw [hs] at h
      exact Except.noConfusion h
    | ok acc1 =>
      rw [hs] at h
      obtain ⟨hn, keep, hk⟩ := defined_of_plainStep_ok c acc acc1 e hs
      obtain ⟨h1, h2⟩ := ih acc1 out h
      constructor
      · simp only [noNullishData, List.all_cons, Bool.and_eq_true, Bool.not_eq_true']
        exact ⟨hn, by simpa [noNullishData] using h1⟩
      · simp only [coercible, List.all_cons, Bool.and_eq_true, hk]
        exact ⟨trivial, by simpa [coercible] using h2⟩

theorem plain_returns_iff (c : Coercions) (allMoves : Obj) :
    (∃ out, plain c allMoves = .ok out) ↔
      (noNullishData allMoves = true ∧ coercible c allMoves = true) := by
  constructor
  · rintro ⟨out, h⟩
    exact defined_of_foldlM_plainStep_ok c allMoves [] out h
  · rintro ⟨hdata, hco⟩
    exact ⟨_, foldlM_plainStep c allMoves [] hdata hco⟩

/-! ## Lookup in the closed form -/

theorem keys_selected_sublist (c : Coercions) (t : Obj) :
    (keys (selected c t)).Sublist (keys t) := by
  have : keys (selected c t) =
      (t.filter (fun e => included c e.2 && decide (e.1 ≠ "__proto__"))).map Prod.fst := by
    simp [keys, selected, List.map_map, Function.comp_def]
  rw [this]
  exact (List.filter_sublist t).map Prod.fst

theorem mem_selected_iff (c : Coercions) (t : Obj) (k : String) (r : Value) :
    (k, r) ∈ selected c t ↔
      ∃ d, (k, d) ∈ t ∧ included c d = true ∧ k ≠ "__proto__" ∧ r = record k d := by
  simp only [selected, List.mem_map, List.mem_filter, Prod.mk.injEq, Prod.exists,
    Bool.and_eq_true, decide_eq_true_eq]
  constructor
  · rintro ⟨k1, d, ⟨hmem, hi, hp⟩, hk, hr⟩
    subst hk
    exact ⟨d, hmem, hi, hp, hr.symm⟩
  · rintro ⟨d, hmem, hi, hp, hr⟩
    exact ⟨k, d, ⟨hmem, hi, hp⟩, rfl, hr.symm⟩

theorem mem_keys_selected_iff (c : Coercions) (t : Obj) (hnd : (keys t).Nodup) (k : String)
    (d : Value) (h : (k, d) ∈ t) :
    k ∈ keys (selected c t) ↔ (included c d = true ∧ k ≠ "__proto__") := by
  constructor
  · intro hk
    simp only [keys, List.mem_map, Prod.exists, exists_and_right, exists_eq_right] at hk
    obtain ⟨r, hr⟩ := hk
    obtain ⟨d1, hmem, hi, hp, _⟩ := (mem_selected_iff c t k r).mp hr
    have h1 := lookup_of_mem_nodup t hnd k d h
    have h2 := lookup_of_mem_nodup t hnd k d1 hmem
    have : d = d1 := by
      rw [h1] at h2
      exact Option.some.inj h2
    rw [this]
    exact ⟨hi, hp⟩
  · intro hi
    exact List.mem_map_of_mem Prod.fst ((mem_selected_iff c t k _).mpr ⟨d, h, hi.1, hi.2, rfl⟩)

theorem lookup_selected (c : Coercions) (t : Obj) (hnd : (keys t).Nodup) (k : String)
    (d : Value) (h : (k, d) ∈ t) :
    (selected c t).lookup k =
      if included c d = true ∧ k ≠ "__proto__" then some (record k d) else none := by
  have hnds : (keys (selected c t)).Nodup := hnd.sublist (keys_selected_sublist c t)
  by_cases hi : included c d = true ∧ k ≠ "__proto__"
  · rw [if_pos hi]
    exact lookup_of_mem_nodup _ hnds k _
      ((mem_selected_iff c t k _).mpr ⟨d, h, hi.1, hi.2, rfl⟩)
  · rw [if_neg hi]
    apply lookup_eq_none_of_not_mem
    rw [mem_keys_selected_iff c t hnd k d h]
    exact hi

theorem length_keys_selected (c : Coercions) (t : Obj) :
    (keys (selected c t)).length =
      (t.filter (fun e => included c e.2 && decide (e.1 ≠ "__proto__"))).length := by
  simp [keys, selected]

/-! ## The record built for an included entry -/

theorem keys_literal (id : String) (data : Value) : keys (literal id data) = allowList := by
  simp [keys, literal, allowList, projectedNames]

theorem keysNodup_literal (id : String) (data : Value) :
    keysNodup (literal id data) = true := by
  simp only [keysNodup, keys_literal]
  decide

theorem record_eq (id : String) (data : Value) :
    record id data = .obj (keptEntries (literal id data)) :=
  sanitize_obj_of_nodup _ (keysNodup_literal id data)

theorem ne_proto_of_mem_projectedNames (n : String) (hn : n ∈ projectedNames) :
    n ≠ "__proto__" := by
  intro h
  subst h
  exact absurd hn (by decide)

theorem keys_keptEntries_literal (id : String) (data : Value) :
    keys (keptEntries (literal id data)) =
      "id" :: projectedNames.filter (fun k => !isFn (field data k)) := by
  have h0 : isFn (Value.str id) = false := rfl
  have hid : ("id" : String) ≠ "__proto__" := by decide
  rw [literal, keptEntries_cons_of_kept "id" _ _ h0 hid]
  simp only [keys, List.map_cons]
  congr 1
  simp only [keptEntries, List.filter_map, List.map_map]
  have hfilter : List.filter ((fun e : String × Value =>
        !isFn e.2 && decide (e.1 ≠ "__proto__")) ∘ fun k => (k, field data k))
      projectedNames = List.filter (fun k => !isFn (field data k)) projectedNames := by
    apply List.filter_congr
    intro n hn
    simp [ne_proto_of_mem_projectedNames n hn]
  rw [hfilter]
  simp [Function.comp_def]

theorem keysNodup_keptEntries_literal (id : String) (data : Value) :
    (keys (keptEntries (literal id data))).Nodup := by
  have hnd : (keys (literal id data)).Nodup := by
    simpa [keysNodup] using keysNodup_literal id data
  exact hnd.sublist (keys_keptEntries_sublist _)

theorem lookup_id_keptEntries_literal (id : String) (data : Value) :
    (keptEntries (literal id data)).lookup "id" = some (.str id) := by
  have h0 : isFn (Value.str id) = false := rfl
  have hid : ("id" : String) ≠ "__proto__" := by decide
  rw [literal, keptEntries_cons_of_kept "id" _ _ h0 hid]
  simp [List.lookup_cons, sanitize]

theorem filter_projectedNames_of_no_fn (data : Value)
    (h : ∀ k ∈ projectedNames, isFn (field data k) = false) :
    projectedNames.filter (fun k => !isFn (field data k)) = projectedNames := by
  apply List.filter_eq_self.mpr
  intro k hk
  simp [h k hk]

theorem lookup_keptEntries_literal (id : String) (data : Value) (n : String)
    (hn : n ∈ projectedNames) :
    (keptEntries (literal id data)).lookup n =
      if isFn (field data n) = true then none else some (sanitize (field data n)) := by
  have hmem : (n, field data n) ∈ literal id data := by
    simp only [literal, List.mem_cons, List.mem_map, Prod.mk.injEq]
    exact Or.inr ⟨n, hn, rfl, rfl⟩
  by_cases hf : isFn (field data n) = true
  · rw [if_pos hf]
    apply lookup_eq_none_of_not_mem
    have hnd : (keys (literal id data)).Nodup := by
      simpa [keysNodup] using keysNodup_literal id data
    exact not_mem_keys_keptEntries _ hnd n _ hmem (Or.inl hf)
  · rw [if_neg hf]
    exact lookup_of_mem_nodup _ (keysNodup_keptEntries_literal id data) n _
      (mem_keptEntries _ n _ hmem (by simpa using hf) (ne_proto_of_mem_projectedNames n hn))

/-! ## Only the fields that are read matter -/

theorem included_congr (c : Coercions) (d1 d2 : Value)
    (h : ∀ n ∈ "gen" :: projectedNames, field d1 n = field d2 n) :
    included c d1 = included c d2 := by
  simp only [included, h "gen" (List.mem_cons_self _ _)]

theorem record_congr (k : String) (d1 d2 : Value)
    (h : ∀ n ∈ "gen" :: projectedNames, field d1 n = field d2 n) :
    record k d1 = record k d2 := by
  have : literal k d1 = literal k d2 := by
    simp only [literal]
    congr 1
    apply List.map_congr_left
    intro n hn
    rw [h n (List.mem_cons_of_mem _ hn)]
  simp only [record, this]

theorem selected_congr (c : Coercions) (t1 : Obj) :
    ∀ t2 : Obj, keys t1 = keys t2 →
      (∀ k d1 d2, (k, d1) ∈ t1 → (k, d2) ∈ t2 →
        ∀ n ∈ "gen" :: projectedNames, field d1 n = field d2 n) →
      selected c t1 = selected c t2 := by
  induction t1 with
  | nil =>
    intro t2 hk _
    cases t2 with
    | nil => rfl
    | cons e rest => simp [keys] at hk
  | cons e1 rest1 ih =>
    intro t2 hk hagree
    cases t2 with
    | nil => simp [keys] at hk
    | cons e2 rest2 =>
      obtain ⟨k1, d1⟩ := e1
      obtain ⟨k2, d2⟩ := e2
      simp only [keys, List.map_cons, List.cons.injEq] at hk
      obtain ⟨hk12, hrest⟩ := hk
      subst hk12
      have hhead := hagree k1 d1 d2 (List.mem_cons_self _ _) (List.mem_cons_self _ _)
      have htail := ih rest2 hrest (fun k x1 x2 h1 h2 =>
        hagree k x1 x2 (List.mem_cons_of_mem _ h1) (List.mem_cons_of_mem _ h2))
      have hinc := included_congr c d1 d2 hhead
      have hrec := record_congr k1 d1 d2 hhead
      by_cases hs : included c d2 = true ∧ k1 ≠ "__proto__"
      · rw [selected_cons_of_stored c k1 d1 rest1 (hinc.trans hs.1) hs.2,
          selected_cons_of_stored c k1 d2 rest2 hs.1 hs.2, hrec, htail]
      · have hskip : included c d2 = false ∨ k1 = "__proto__" := by
          by_cases hi : included c d2 = true
          · exact Or.inr (by
              by_contra hne
              exact hs ⟨hi, hne⟩)
          · exact Or.inl (by simpa using hi)
        rw [selected_cons_of_skipped c k1 d1 rest1 (hskip.imp (fun h => hinc.trans h) id),
          selected_cons_of_skipped c k1 d2 rest2 hskip, htail]

theorem lookup_selected_congr (c : Coercions) (t1 t2 : Obj) (hnd1 : (keys t1).Nodup)
    (hnd2 : (keys t2).Nodup) (hkeys : ∀ k, k ∈ keys t1 ↔ k ∈ keys t2)
    (hagree : ∀ k d1 d2, (k, d1) ∈ t1 → (k, d2) ∈ t2 →
      ∀ n ∈ "gen" :: projectedNames, field d1 n = field d2 n) (k : String) :
    (selected c t1).lookup k = (selected c t2).lookup k := by
  by_cases hk : k ∈ keys t1
  · have hk2 := (hkeys k).mp hk
    simp only [keys, List.mem_map, Prod.exists, exists_and_right, exists_eq_right] at hk hk2
    obtain ⟨d1, h1⟩ := hk
    obtain ⟨d2, h2⟩ := hk2
    rw [lookup_selected c t1 hnd1 k d1 h1, lookup_selected c t2 hnd2 k d2 h2,
      included_congr c d1 d2 (hagree k d1 d2 h1 h2), record_congr k d1 d2 (hagree k d1 d2 h1 h2)]
  · have hk2 : k ∉ keys t2 := fun h => hk ((hkeys k).mpr h)
    rw [lookup_eq_none_of_not_mem _ k (fun h => hk ((keys_selected_sublist c t1).subset h)),
      lookup_eq_none_of_not_mem _ k (fun h => hk2 ((keys_selected_sublist c t2).subset h))]

/-! ## The document -/

theorem keys_serializeEntries_subset (es : Obj) (k : String)
    (h : k ∈ (serializeEntries es).map Prod.fst) : k ∈ keys es := by
  induction es with
  | nil => simp [serializeEntries] at h
  | cons e rest ih =>
    obtain ⟨k0, v0⟩ := e
    simp only [keys, List.map_cons, List.mem_cons]
    cases hs : serialize v0 with
    | none =>
      simp only [serializeEntries, hs] at h
      exact Or.inr (ih h)
    | some j =>
      simp only [serializeEntries, hs, List.map_cons, List.mem_cons] at h
      rcases h with h | h
      · exact Or.inl h
      · exact Or.inr (ih h)

theorem lookup_serializeEntries (es : Obj) (hnd : (keys es).Nodup) (k : String) :
    (serializeEntries es).lookup k = (es.lookup k).bind serialize := by
  induction es with
  | nil => simp [serializeEntries]
  | cons e rest ih =>
    obtain ⟨k0, v0⟩ := e
    simp only [keys, List.map_cons, List.nodup_cons] at hnd
    by_cases hk : k = k0
    · subst hk
      have hrest : (serializeEntries rest).lookup k = none := by
        cases hl : (serializeEntries rest).lookup k with
        | none => rfl
        | some j =>
          exfalso
          apply hnd.1
          apply keys_serializeEntries_subset rest k
          exact mem_keys_of_lookup_eq_some _ k j hl
      cases hs : serialize v0 with
      | none => simp [serializeEntries, hs, List.lookup_cons, hrest]
      | some j => simp [serializeEntries, hs, List.lookup_cons]
    · have hb : (k == k0) = false := by simpa using hk
      cases hs : serialize v0 with
      | none => simp [serializeEntries, hs, List.lookup_cons, hb, ih hnd.2]
      | some j => simp [serializeEntries, hs, List.lookup_cons, hb, ih hnd.2]

theorem getElem?_serializeElems (xs : List Value) (i : Nat) :
    (serializeElems xs)[i]? = (xs[i]?).map (fun x =>
      match serialize x with
      | some j => j
      | none => Json.null) := by
  induction xs generalizing i with
  | nil => simp [serializeElems]
  | cons x rest ih =>
    cases i with
    | zero => simp [serializeElems]
    | succ i => simpa [serializeElems] using ih i

theorem run_eq_of_plain (c : Coercions) (allMoves : Obj) (out : Obj)
    (h : plain c allMoves = .ok out) :
    run c allMoves = .ok (.obj (serializeEntries out), (keys out).length) := by
  simp only [run, h, serialize]
  rfl

theorem reportedCount_eq_of_plain (c : Coercions) (allMoves : Obj) (out : Obj)
    (h : plain c allMoves = .ok out) : reportedCount c allMoves = .ok (keys out).length := by
  simp only [reportedCount, h]
  rfl

/-! ## Paths into a value and into its document -/

theorem wellFormed_of_mem_entries (es : Obj) (k : String) (v : Value)
    (hw : wellFormedEntries es = true) (h : (k, v) ∈ es) : wellFormed v = true := by
  induction es with
  | nil => simp at h
  | cons e rest ih =>
    obtain ⟨k0, v0⟩ := e
    simp only [wellFormedEntries, Bool.and_eq_true] at hw
    simp only [List.mem_cons, Prod.mk.injEq] at h
    rcases h with ⟨_, hv⟩ | h
    · rw [hv]
      exact hw.1
    · exact ih hw.2 h

theorem wellFormed_of_mem_elems (xs : List Value) (v : Value)
    (hw : wellFormedElems xs = true) (h : v ∈ xs) : wellFormed v = true := by
  induction xs with
  | nil => simp at h
  | cons x rest ih =>
    simp only [wellFormedElems, Bool.and_eq_true] at hw
    simp only [List.mem_cons] at h
    rcases h with h | h
    · rw [h]
      exact hw.1
    · exact ih hw.2 h

theorem serialize_isSome_of_valueAt_num (p : List Step) (v : Value) (x : JSNum)
    (h : valueAt p v = some (.num x)) : ∃ j, serialize v = some j := by
  cases p with
  | nil =>
    simp only [valueAt, Option.some.injEq] at h
    subst h
    cases x <;> exact ⟨_, rfl⟩
  | cons s p =>
    cases v with
    | arr xs => exact ⟨_, rfl⟩
    | obj es => exact ⟨_, rfl⟩
    | undefined => cases s <;> simp [valueAt] at h
    | null => cases s <;> simp [valueAt] at h
    | bool b => cases s <;> simp [valueAt] at h
    | num n => cases s <;> simp [valueAt] at h
    | str t => cases s <;> simp [valueAt] at h
    | fn r => cases s <;> simp [valueAt] at h

theorem jsonAt_serialize (x : JSNum) (hx : x.isFinite = false) (p : List Step) :
    ∀ (v : Value) (j : Json), wellFormed v = true → valueAt p v = some (.num x) →
      serialize v = some j → jsonAt p j = some .null := by
  induction p with
  | nil =>
    intro v j _ hv hs
    simp only [valueAt, Option.some.injEq] at hv
    subst hv
    cases x with
    | nan =>
      simp only [serialize, Option.some.injEq] at hs
      subst hs
      rfl
    | posInf =>
      simp only [serialize, Option.some.injEq] at hs
      subst hs
      rfl
    | negInf =>
      simp only [serialize, Option.some.injEq] at hs
      subst hs
      rfl
    | negZero => simp [JSNum.isFinite] at hx
    | fin q => simp [JSNum.isFinite] at hx
  | cons s p ih =>
    intro v j hw hv hs
    cases s with
    | key k =>
      cases v with
      | obj es =>
        simp only [wellFormed, Bool.and_eq_true] at hw
        have hnd : (keys es).Nodup := by simpa [keysNodup] using hw.1
        simp only [serialize, Option.some.injEq] at hs
        subst hs
        cases hl : es.lookup k with
        | none => simp [valueAt, hl] at hv
        | some v1 =>
          simp only [valueAt, hl] at hv
          obtain ⟨j1, hj1⟩ := serialize_isSome_of_valueAt_num p v1 x hv
          have hw1 := wellFormed_of_mem_entries es k v1 hw.2 (mem_of_lookup_eq_some es k v1 hl)
          have hlook : (serializeEntries es).lookup k = some j1 := by
            rw [lookup_serializeEntries es hnd k, hl]
            exact hj1
          simp only [jsonAt, hlook]
          exact ih v1 j1 hw1 hv hj1
      | arr xs => simp [valueAt] at hv
      | undefined => simp [valueAt] at hv
      | null => simp [valueAt] at hv
      | bool b => simp [valueAt] at hv
      | num n => simp [valueAt] at hv
      | str t => simp [valueAt] at hv
      | fn r => simp [valueAt] at hv
    | index i =>
      cases v with
      | arr xs =>
        simp only [wellFormed] at hw
        simp only [serialize, Option.some.injEq] at hs
        subst hs
        cases hl : xs[i]? with
        | none => simp [valueAt, hl] at hv
        | some v1 =>
          simp only [valueAt, hl] at hv
          obtain ⟨j1, hj1⟩ := serialize_isSome_of_valueAt_num p v1 x hv
          have hw1 := wellFormed_of_mem_elems xs v1 hw (List.getElem?_mem hl)
          have hlook : (serializeElems xs)[i]? = some j1 := by
            rw [getElem?_serializeElems, hl]
            simp [hj1]
          simp only [jsonAt, hlook]
          exact ih v1 j1 hw1 hv hj1
      | obj es => simp [valueAt] at hv
      | undefined => simp [valueAt] at hv
      | null => simp [valueAt] at hv
      | bool b => simp [valueAt] at hv
      | num n => simp [valueAt] at hv
      | str t => simp [valueAt] at hv
      | fn r => simp [valueAt] at hv

theorem wellFormedEntries_selected (c : Coercions) (t : Obj) :
    wellFormedEntries (selected c t) = true := by
  induction t with
  | nil => rfl
  | cons e rest ih =>
    obtain ⟨k, d⟩ := e
    by_cases hs : included c d = true ∧ k ≠ "__proto__"
    · rw [selected_cons_of_stored c k d rest hs.1 hs.2]
      simp only [wellFormedEntries, Bool.and_eq_true]
      exact ⟨wellFormed_sanitize _, ih⟩
    · have hskip : included c d = false ∨ k = "__proto__" := by
        by_cases hi : included c d = true
        · exact Or.inr (by
            by_contra hne
            exact hs ⟨hi, hne⟩)
        · exact Or.inl (by simpa using hi)
      rw [selected_cons_of_skipped c k d rest hskip]
      exact ih

theorem wellFormed_selected (c : Coercions) (t : Obj) (hnd : (keys t).Nodup) :
    wellFormed (.obj (selected c t)) = true := by
  simp only [wellFormed, Bool.and_eq_true, keysNodup, decide_eq_true_eq]
  exact ⟨hnd.sublist (keys_selected_sublist c t), wellFormedEntries_selected c t⟩

/-! ## Size and depth -/

theorem sizeEntries_setProp_le (o : Obj) (k : String) (v : Value) :
    sizeEntries (setProp o k v) ≤ sizeEntries o + size v := by
  by_cases hp : k = "__proto__"
  · simp [setProp, hp]
  · rw [setProp_of_ne o k v hp]
    induction o with
    | nil => simp [setOwn, sizeEntries]
    | cons e rest ih =>
      obtain ⟨k0, v0⟩ := e
      by_cases hk : k0 = k
      · simp only [setOwn, hk, if_true, sizeEntries]
        omega
      · simp only [setOwn, hk, if_false, sizeEntries]
        omega

theorem depthEntries_setProp_le (o : Obj) (k : String) (v : Value) :
    depthEntries (setProp o k v) ≤ max (depthEntries o) (depth v) := by
  by_cases hp : k = "__proto__"
  · simp [setProp, hp]
  · rw [setProp_of_ne o k v hp]
    induction o with
    | nil => simp [setOwn, depthEntries]
    | cons e rest ih =>
      obtain ⟨k0, v0⟩ := e
      by_cases hk : k0 = k
      · simp only [setOwn, hk, if_true, depthEntries]
        omega
      · simp only [setOwn, hk, if_false, depthEntries]
        omega

mutual
theorem size_sanitize_le : ∀ v : Value, size (sanitize v) ≤ size v
  | .arr xs => by
    simp only [sanitize, size]
    have := sizeElems_sanitizeElems_le xs
    omega
  | .obj es => by
    simp only [sanitize, size]
    have := sizeEntries_sanitizeEntries_le es []
    simp only [sizeEntries] at this
    omega
  | .undefined => le_refl _
  | .null => le_refl _
  | .bool _ => le_refl _
  | .num _ => le_refl _
  | .str _ => le_refl _
  | .fn _ => le_refl _
theorem sizeElems_sanitizeElems_le : ∀ xs : List Value,
    sizeElems (sanitizeElems xs) ≤ sizeElems xs
  | [] => le_refl _
  | x :: xs => by
    simp only [sanitizeElems, sizeElems]
    have h1 := size_sanitize_le x
    have h2 := sizeElems_sanitizeElems_le xs
    omega
theorem sizeEntries_sanitizeEntries_le : ∀ (es : List (String × Value)) (out : Obj),
    sizeEntries (sanitizeEntries es out) ≤ sizeEntries out + sizeEntries es
  | [], out => by simp [sanitizeEntries, sizeEntries]
  | (k, v) :: rest, out => by
    by_cases hf : isFn v = true
    · simp only [sanitizeEntries, hf, if_true, sizeEntries]
      have := sizeEntries_sanitizeEntries_le rest out
      omega
    · simp only [sanitizeEntries, hf, sizeEntries]
      have h1 := sizeEntries_sanitizeEntries_le rest (setProp out k (sanitize v))
      have h2 := sizeEntries_setProp_le out k (sanitize v)
      have h3 := size_sanitize_le v
      simp only [Bool.false_eq_true, if_false]
      omega
end

mutual
theorem depth_sanitize_le : ∀ v : Value, depth (sanitize v) ≤ depth v
  | .arr xs => by
    simp only [sanitize, depth]
    have := depthElems_sanitizeElems_le xs
    omega
  | .obj es => by
    simp only [sanitize, depth]
    have := depthEntries_sanitizeEntries_le es []
    simp only [depthEntries] at this
    omega
  | .undefined => le_refl _
  | .null => le_refl _
  | .bool _ => le_refl _
  | .num _ => le_refl _
  | .str _ => le_refl _
  | .fn _ => le_refl _
theorem depthElems_sanitizeElems_le : ∀ xs : List Value,
    depthElems (sanitizeElems xs) ≤ depthElems xs
  | [] => le_refl _
  | x :: xs => by
    simp only [sanitizeElems, depthElems]
    have h1 := depth_sanitize_le x
    have h2 := depthElems_sanitizeElems_le xs
    omega
theorem depthEntries_sanitizeEntries_le : ∀ (es : List (String × Value)) (out : Obj),
    depthEntries (sanitizeEntries es out) ≤ max (depthEntries out) (depthEntries es)
  | [], out => by simp [sanitizeEntries, depthEntries]
  | (k, v) :: rest, out => by
    by_cases hf : isFn v = true
    · simp only [sanitizeEntries, hf, if_true, depthEntries]
      have := depthEntries_sanitizeEntries_le rest out
      omega
    · simp only [sanitizeEntries, hf, depthEntries]
      have h1 := depthEntries_sanitizeEntries_le rest (setProp out k (sanitize v))
      have h2 := depthEntries_setProp_le out k (sanitize v)
      have h3 := depth_sanitize_le v
      simp only [Bool.false_eq_true, if_false]
      omega
end

/-! ## `sanitize` on a bounded call stack -/

mutual
theorem sanitizeStack_of_depth_lt : ∀ (v : Value) (limit : Nat), depth v < limit →
    sanitizeStack limit v = .ok (sanitize v)
  | .arr xs, limit, h => by
    cases limit with
    | zero => omega
    | succ n =>
      simp only [depth] at h
      simp only [sanitizeStack, sanitize, mapM_sanitizeStack xs n (by omega)]
      rfl
  | .obj es, limit, h => by
    cases limit with
    | zero => omega
    | succ n =>
      simp only [depth] at h
      simp only [sanitizeStack, sanitize, foldlM_sanitizeStack es n [] (by omega)]
      rfl
  | .undefined, limit, h => by cases limit with | zero => omega | succ n => rfl
  | .null, limit, h => by cases limit with | zero => omega | succ n => rfl
  | .bool _, limit, h => by cases limit with | zero => omega | succ n => rfl
  | .num _, limit, h => by cases limit with | zero => omega | succ n => rfl
  | .str _, limit, h => by cases limit with | zero => omega | succ n => rfl
  | .fn _, limit, h => by cases limit with | zero => omega | succ n => rfl
theorem mapM_sanitizeStack : ∀ (xs : List Value) (limit : Nat), depthElems xs < limit →
    xs.mapM (sanitizeStack limit) = .ok (sanitizeElems xs)
  | [], _, _ => rfl
  | x :: xs, limit, h => by
    simp only [depthElems] at h
    simp only [List.mapM_cons, sanitizeStack_of_depth_lt x limit (by omega),
      mapM_sanitizeStack xs limit (by omega), sanitizeElems]
    rfl
theorem foldlM_sanitizeStack : ∀ (es : List (String × Value)) (limit : Nat) (out : Obj),
    depthEntries es < limit →
      es.foldlM (fun out e =>
        if isFn e.2 then pure out
        else do
          let w ← sanitizeStack limit e.2
          pure (setProp out e.1 w)) out = .ok (sanitizeEntries es out)
  | [], _, _, _ => rfl
  | (k, v) :: rest, limit, out, h => by
    simp only [depthEntries] at h
    by_cases hf : isFn v = true
    · simp only [List.foldlM_cons, hf, if_true, sanitizeEntries]
      exact foldlM_sanitizeStack rest limit out (by omega)
    · have hf0 : isFn v = false := by simpa using hf
      simp only [List.foldlM_cons, hf0, Bool.false_eq_true, if_false, sanitizeEntries,
        sanitizeStack_of_depth_lt v limit (by omega)]
      exact foldlM_sanitizeStack rest limit _ (by omega)
end

theorem sanitizeStack_deepArray (limit : Nat) :
    sanitizeStack limit (deepArray limit) = .error .rangeError := by
  induction limit with
  | zero => rfl
  | succ n ih =>
    simp only [deepArray, sanitizeStack, List.mapM_cons, ih]
    rfl

/-! ## The filter condition spelled out -/

theorem included_iff (c : Coercions) (data : Value) :
    included c data = true ↔
      (truthy (field data "gen") = true ∧
        ∃ n, toNumber c (field data "gen") = .ok n ∧ JSNum.le n (.fin 3) = true) := by
  simp only [included, genOk]
  by_cases ht : truthy (field data "gen") = true
  · simp only [ht, if_true, true_and]
    cases hn : toNumber c (field data "gen") with
    | error err =>
      constructor
      · intro h
        exact absurd h (by simp [bind, Except.bind])
      · rintro ⟨n, hn1, _⟩
        exact Except.noConfusion hn1
    | ok n =>
      constructor
      · intro h
        exact ⟨n, rfl, by simpa [bind, Except.bind, pure, Except.pure] using h⟩
      · rintro ⟨m, hm, hle⟩
        have : n = m := Except.ok.inj hm
        subst this
        simpa [bind, Except.bind, pure, Except.pure] using hle
  · simp only [ht, Bool.false_eq_true, if_false, false_and, iff_false]
    simp [pure, Except.pure]

theorem included_of_falsy (c : Coercions) (data : Value)
    (h : truthy (field data "gen") = false) : included c data = false := by
  have := (included_iff c data).not
  simp only [h, Bool.false_eq_true, false_and, not_false_eq_true, iff_true] at this
  simpa using this

theorem not_nullish_of_mem (t : Obj) (hdata : noNullishData t = true) (id : String)
    (data : Value) (hmem : (id, data) ∈ t) : isNullish data = false := by
  have := List.all_eq_true.mp hdata (id, data) hmem
  simpa using this

theorem filter_stored_eq_of_no_proto (c : Coercions) (t : Obj)
    (hproto : hasOwn t "__proto__" = false) :
    t.filter (fun e => included c e.2 && decide (e.1 ≠ "__proto__")) =
      t.filter (fun e => included c e.2) := by
  have hnot : "__proto__" ∉ keys t := (hasOwn_eq_false_iff t _).mp hproto
  apply List.filter_congr
  intro e he
  have hne : e.1 ≠ "__proto__" := by
    intro h
    apply hnot
    rw [← h]
    exact List.mem_map_of_mem Prod.fst he
  simp [hne]

/-! # The claims -/

/-! ## Claims about `sanitize` -/

/-- C3 (amended): for every value `v`, no object at any depth inside `sanitize v` has a key
whose value is a function; and for an object (its keys distinct, as in JavaScript)
`sanitize` drops every key whose value is a function and keeps every key other than
`__proto__` whose value is not a function, with the sanitized value. -/
theorem sanitize_drops_exactly_function_valued_keys (v : Value) (es : Obj)
    (hnd : keysNodup es = true) :
    fnKeyFree (sanitize v) = true ∧
    ∃ out, sanitize (.obj es) = .obj out ∧
      ∀ k x, (k, x) ∈ es →
        (isFn x = true → hasOwn out k = false) ∧
        (isFn x = false → k ≠ "__proto__" →
          hasOwn out k = true ∧ out.lookup k = some (sanitize x)) := by
  refine ⟨fnKeyFree_sanitize v, keptEntries es, sanitize_obj_of_nodup es hnd, ?_⟩
  have hnd0 : (keys es).Nodup := by simpa [keysNodup] using hnd
  intro k x hmem
  constructor
  · intro hf
    exact (hasOwn_eq_false_iff _ k).mpr
      (not_mem_keys_keptEntries es hnd0 k x hmem (Or.inl hf))
  · intro hf hk
    have hin := mem_keptEntries es k x hmem hf hk
    exact ⟨(hasOwn_iff_mem_keys _ k).mpr (List.mem_map_of_mem Prod.fst hin),
      lookup_of_mem_nodup _ (hnd0.sublist (keys_keptEntries_sublist es)) k _ hin⟩

/-- Witness for C3 (amended) on an object with function-valued keys at two depths. -/
theorem sanitize_drops_exactly_function_valued_keys_witness :
    keysNodup mixedEntries = true ∧
    (fnKeyFree (sanitize (.obj mixedEntries)) = true ∧
    ∃ out, sanitize (.obj mixedEntries) = .obj out ∧
      ∀ k x, (k, x) ∈ mixedEntries →
        (isFn x = true → hasOwn out k = false) ∧
        (isFn x = false → k ≠ "__proto__" →
          hasOwn out k = true ∧ out.lookup k = some (sanitize x))) :=
  ⟨by decide, sanitize_drops_exactly_function_valued_keys (.obj mixedEntries) mixedEntries
    (by decide)⟩

/-- Counterexample to C3 as stated: the own key `__proto__` of an object holds data, not a
function, and `sanitize` does not keep it. -/
theorem proto_key_with_data_is_dropped :
    keysNodup protoKeyEntries = true ∧
    protoKeyEntries.lookup "__proto__" = some (.obj [("a", .num (.fin 1))]) ∧
    isFn (.obj [("a", .num (.fin 1))]) = false ∧
    ∃ out, sanitize (.obj protoKeyEntries) = .obj out ∧ hasOwn out "__proto__" = false :=
  ⟨by decide, rfl, rfl, _, rfl, rfl⟩

/-- C5 (amended): a value that holds no function at any depth and no object with the own
key `__proto__` (its objects with distinct keys, as in JavaScript) is returned by
`sanitize` unchanged; in particular numbers, strings, booleans, `null` and `undefined`
pass through unchanged. -/
theorem sanitize_fixes_function_free_values (v : Value) (hw : wellFormed v = true)
    (hp : protoFree v = true) (hf : hasFn v = false) :
    sanitize v = v ∧
    (∀ n, sanitize (.num n) = .num n) ∧ (∀ s, sanitize (.str s) = .str s) ∧
    (∀ b, sanitize (.bool b) = .bool b) ∧ sanitize .null = .null ∧
    sanitize .undefined = .undefined :=
  ⟨sanitize_eq_self v hw hp hf, fun _ => rfl, fun _ => rfl, fun _ => rfl, rfl, rfl⟩

/-- Witness for C5 (amended) on a nested value without functions. -/
theorem sanitize_fixes_function_free_values_witness :
    wellFormed dataOnlyValue = true ∧ protoFree dataOnlyValue = true ∧
    hasFn dataOnlyValue = false ∧
    (sanitize dataOnlyValue = dataOnlyValue ∧
    (∀ n, sanitize (.num n) = .num n) ∧ (∀ s, sanitize (.str s) = .str s) ∧
    (∀ b, sanitize (.bool b) = .bool b) ∧ sanitize .null = .null ∧
    sanitize .undefined = .undefined) :=
  ⟨by decide, by decide, by decide, sanitize_fixes_function_free_values dataOnlyValue
    (by decide) (by decide) (by decide)⟩

/-- Counterexample to C5 as stated: an object without any function, its keys distinct, that
holds data under the own key `__proto__` is not returned unchanged: the result has the
key `b` only. -/
theorem proto_key_value_is_not_preserved :
    wellFormed (.obj protoKeyEntries) = true ∧ hasFn (.obj protoKeyEntries) = false ∧
    sanitize (.obj protoKeyEntries) = .obj [("b", .num (.fin 2))] ∧
    sanitize (.obj protoKeyEntries) ≠ .obj protoKeyEntries := by
  refine ⟨by decide, by decide, rfl, ?_⟩
  intro h
  have h1 : sanitize (.obj protoKeyEntries) = .obj [("b", .num (.fin 2))] := rfl
  rw [h1] at h
  have h2 := congrArg (fun v => match v with
    | Value.obj es => es.length
    | _ => 0) h
  exact absurd h2 (by decide)

/-- C10: for every array `a`, `sanitize a` is an array of the same length whose element
at each index is `sanitize` of the element of `a` at that index. -/
theorem sanitize_array_elementwise (a : List Value) :
    ∃ b, sanitize (.arr a) = .arr b ∧ b.length = a.length ∧
      ∀ i : Nat, b[i]? = (a[i]?).map sanitize := by
  refine ⟨a.map sanitize, ?_, by simp, fun i => by simp⟩
  simp only [sanitize, sanitizeElems_eq_map]

/-- C13: `sanitize` is idempotent: sanitizing a sanitized value changes nothing. -/
theorem sanitize_idempotent (v : Value) : sanitize (sanitize v) = sanitize v :=
  sanitize_eq_self_of_fnKeyFree (sanitize v) (wellFormed_sanitize v) (protoFree_sanitize v)
    (fnKeyFree_sanitize v)

/-- C15 (amended): on a call stack that holds more nested calls than the value is deep,
`sanitize` returns (its calls are on the elements of an array and on the property values
of an object only), and the result has no more nodes and no greater depth than the
value. -/
theorem sanitize_returns_within_stack_and_does_not_grow (v : Value) (limit : Nat)
    (h : depth v < limit) :
    sanitizeStack limit v = .ok (sanitize v) ∧
    size (sanitize v) ≤ size v ∧ depth (sanitize v) ≤ depth v :=
  ⟨sanitizeStack_of_depth_lt v limit h, size_sanitize_le v, depth_sanitize_le v⟩

/-- Witness for C15 (amended): a value of depth 3 on a stack of 4 calls. -/
theorem sanitize_returns_within_stack_and_does_not_grow_witness :
    depth nestedValue < 4 ∧
    (sanitizeStack 4 nestedValue = .ok (sanitize nestedValue) ∧
    size (sanitize nestedValue) ≤ size nestedValue ∧
    depth (sanitize nestedValue) ≤ depth nestedValue) :=
  ⟨by decide, sanitize_returns_within_stack_and_does_not_grow nestedValue 4 (by decide)⟩

/-- Counterexample to C15 as stated: whatever number of nested calls the stack holds,
there is a finite tree on which `sanitize` does not return: on the array nested that many
times it stops with a `RangeError`. -/
theorem sanitize_fails_on_deep_array :
    ¬ ∃ limit : Nat, ∀ v : Value, ∃ w, sanitizeStack limit v = .ok w := by
  rintro ⟨limit, h⟩
  obtain ⟨w, hw⟩ := h (deepArray limit)
  rw [sanitizeStack_deepArray limit] at hw
  exact Except.noConfusion hw

/-! ## Claims about the table `plain` -/

/-- C1 (amended): for a table with distinct keys on which the loop does not throw, the loop
returns a table `plain`, and for every entry `(id, data)` of the source whose key is not
`__proto__`, `plain` has the key `id` if and only if `data.gen` is truthy and numerically
at most 3. -/
theorem plain_has_key_iff_gen_truthy_and_le_three (c : Coercions) (allMoves : Obj)
    (hnd : keysNodup allMoves = true) (hdata : noNullishData allMoves = true)
    (hco : coercible c allMoves = true)
    (id : String) (data : Value) (hmem : (id, data) ∈ allMoves) (hid : id ≠ "__proto__") :
    ∃ out gen, plain c allMoves = .ok out ∧ getProp data "gen" = .ok gen ∧
      (hasOwn out id = true ↔
        (truthy gen = true ∧
          ∃ n, toNumber c gen = .ok n ∧ JSNum.le n (.fin 3) = true)) := by
  have hnn := not_nullish_of_mem allMoves hdata id data hmem
  refine ⟨selected c allMoves, field data "gen", plain_eq_selected c allMoves hnd hdata hco,
    getProp_of_not_nullish data _ hnn, ?_⟩
  rw [hasOwn_iff_mem_keys,
    mem_keys_selected_iff c allMoves (by simpa [keysNodup] using hnd) id data hmem,
    included_iff c data]
  exact ⟨fun h => h.1, fun h => ⟨h, hid⟩⟩

/-- Witness for C1 (amended) on a table with one included and one excluded move. -/
theorem plain_has_key_iff_gen_truthy_and_le_three_witness :
    keysNodup twoMoveTable = true ∧ noNullishData twoMoveTable = true ∧
    coercible sampleCoercions twoMoveTable = true ∧
    ("surf", Value.obj [("gen", .num (.fin 2)), ("name", .str "Surf"),
      ("recoil", .num (.fin 1))]) ∈ twoMoveTable ∧
    "surf" ≠ "__proto__" ∧
    ∃ out gen, plain sampleCoercions twoMoveTable = .ok out ∧
      getProp (Value.obj [("gen", .num (.fin 2)), ("name", .str "Surf"),
        ("recoil", .num (.fin 1))]) "gen" = .ok gen ∧
      (hasOwn out "surf" = true ↔
        (truthy gen = true ∧
          ∃ n, toNumber sampleCoercions gen = .ok n ∧ JSNum.le n (.fin 3) = true)) :=
  ⟨by decide, by decide, by decide, by simp [twoMoveTable], by decide,
    plain_has_key_iff_gen_truthy_and_le_three sampleCoercions twoMoveTable (by decide)
      (by decide) (by decide) "surf" _ (by simp [twoMoveTable]) (by decide)⟩

/-- Counterexample to C1 as stated: a move whose generation attribute is present and
numerically at most 3 (it is 0) has no entry in `plain`; neither has a move of generation
1 stored under the own key `__proto__`. -/
theorem present_gen_le_three_but_excluded :
    (specGenOk sampleCoercions (.obj [("gen", .num (.fin 0)), ("name", .str "Zero")]) = true ∧
      ∃ out, plain sampleCoercions zeroGenTable = .ok out ∧ hasOwn out "zero" = false) ∧
    (specGenOk sampleCoercions (.obj [("gen", .num (.fin 1)), ("name", .str "Hidden")]) = true ∧
      hasOwn protoKeyTable "__proto__" = true ∧
      ∃ out, plain sampleCoercions protoKeyTable = .ok out ∧
        hasOwn out "__proto__" = false) :=
  ⟨⟨rfl, [], rfl, rfl⟩, rfl, rfl, _, rfl, rfl⟩

/-- C2 (amended): for a table with distinct keys on which the loop does not throw, every
record of `plain` comes from a source entry under the same key, its keys are among the
nine names of the allow-list, in that order, and include `id`; they are all nine names
when none of the eight projected source fields is a function (a missing field is kept, an
extra field is not). -/
theorem record_keys_within_allow_list (c : Coercions) (allMoves : Obj)
    (hnd : keysNodup allMoves = true) (hdata : noNullishData allMoves = true)
    (hco : coercible c allMoves = true) :
    ∃ out, plain c allMoves = .ok out ∧
      ∀ k r, (k, r) ∈ out → ∃ data rec, (k, data) ∈ allMoves ∧ r = .obj rec ∧
        (keys rec).Sublist allowList ∧ "id" ∈ keys rec ∧
        ((∀ n ∈ projectedNames, isFn (field data n) = false) → keys rec = allowList) := by
  refine ⟨selected c allMoves, plain_eq_selected c allMoves hnd hdata hco, ?_⟩
  intro k r hmem
  obtain ⟨d, hd, _, _, hr⟩ := (mem_selected_iff c allMoves k r).mp hmem
  refine ⟨d, keptEntries (literal k d), hd, hr.trans (record_eq k d), ?_, ?_, ?_⟩
  · rw [keys_keptEntries_literal]
    exact (List.filter_sublist projectedNames).cons₂ "id"
  · rw [keys_keptEntries_literal]
    exact List.mem_cons_self _ _
  · intro hno
    rw [keys_keptEntries_literal, filter_projectedNames_of_no_fn d hno, allowList]

/-- Witness for C2 (amended) on a table with one included and one excluded move. -/
theorem record_keys_within_allow_list_witness :
    keysNodup twoMoveTable = true ∧ noNullishData twoMoveTable = true ∧
    coercible sampleCoercions twoMoveTable = true ∧
    ∃ out, plain sampleCoercions twoMoveTable = .ok out ∧
      ∀ k r, (k, r) ∈ out → ∃ data rec, (k, data) ∈ twoMoveTable ∧ r = .obj rec ∧
        (keys rec).Sublist allowList ∧ "id" ∈ keys rec ∧
        ((∀ n ∈ projectedNames, isFn (field data n) = false) → keys rec = allowList) :=
  ⟨by decide, by decide, by decide, record_keys_within_allow_list sampleCoercions
    twoMoveTable (by decide) (by decide) (by decide)⟩

/-- Counterexample to C2 as stated: the record of a move whose `name` is a function has
eight keys, `name` is not among them. -/
theorem function_valued_name_leaves_eight_keys :
    ∃ rec, plain sampleCoercions fnNameTable = .ok [("growl", .obj rec)] ∧
      keys rec = ["id", "type", "category", "basePower", "accuracy", "pp", "priority",
        "flags"] ∧
      keys rec ≠ allowList :=
  ⟨_, rfl, rfl, by decide⟩

/-- C4 (the code at the failing input): the record of a move whose `flags` is an array
holding a function still holds that function. -/
theorem function_inside_array_survives :
    plain sampleCoercions fnInFlagsTable =
      .ok [("growl", .obj [("id", .str "growl"), ("name", .str "Growl"),
        ("type", .undefined), ("category", .undefined), ("basePower", .undefined),
        ("accuracy", .undefined), ("pp", .undefined), ("priority", .undefined),
        ("flags", .arr [.fn 0])])] ∧
    hasFn (.obj [("id", .str "growl"), ("name", .str "Growl"),
        ("type", .undefined), ("category", .undefined), ("basePower", .undefined),
        ("accuracy", .undefined), ("pp", .undefined), ("priority", .undefined),
        ("flags", .arr [.fn 0])]) = true :=
  ⟨rfl, rfl⟩

/-- C6: for a table with distinct keys on which the loop does not throw, every key of
`plain` is a key of the source table, and the record stored under a key `k` has the field
`id`, whose value is the string `k`. -/
theorem plain_keys_from_source_and_id_is_key (c : Coercions) (allMoves : Obj)
    (hnd : keysNodup allMoves = true) (hdata : noNullishData allMoves = true)
    (hco : coercible c allMoves = true) :
    ∃ out, plain c allMoves = .ok out ∧
      ∀ k, hasOwn out k = true →
        hasOwn allMoves k = true ∧
        ∃ rec, out.lookup k = some (.obj rec) ∧ rec.lookup "id" = some (.str k) := by
  refine ⟨selected c allMoves, plain_eq_selected c allMoves hnd hdata hco, ?_⟩
  have hnd0 : (keys allMoves).Nodup := by simpa [keysNodup] using hnd
  intro k hk
  rw [hasOwn_iff_mem_keys] at hk
  refine ⟨(hasOwn_iff_mem_keys _ k).mpr ((keys_selected_sublist c allMoves).subset hk), ?_⟩
  have hk0 := hk
  simp only [keys, List.mem_map, Prod.exists, exists_and_right, exists_eq_right] at hk0
  obtain ⟨r, hr⟩ := hk0
  obtain ⟨d, hd, hi, hp, _⟩ := (mem_selected_iff c allMoves k r).mp hr
  refine ⟨keptEntries (literal k d), ?_, lookup_id_keptEntries_literal k d⟩
  rw [lookup_selected c allMoves hnd0 k d hd, if_pos ⟨hi, hp⟩, record_eq]

/-- Witness for C6 on a table with one included and one excluded move. -/
theorem plain_keys_from_source_and_id_is_key_witness :
    keysNodup twoMoveTable = true ∧ noNullishData twoMoveTable = true ∧
    coercible sampleCoercions twoMoveTable = true ∧
    ∃ out, plain sampleCoercions twoMoveTable = .ok out ∧
      ∀ k, hasOwn out k = true →
        hasOwn twoMoveTable k = true ∧
        ∃ rec, out.lookup k = some (.obj rec) ∧ rec.lookup "id" = some (.str k) :=
  ⟨by decide, by decide, by decide, plain_keys_from_source_and_id_is_key sampleCoercions
    twoMoveTable (by decide) (by decide) (by decide)⟩

/-- C7: on the example table of the specification, whatever the fields left open hold,
`plain` has the keys `tackle` and `dragonBreath`, does not have `futureGen`, the count
printed is 2, and the record of `tackle` is the source record without `gen`, with `id`. -/
theorem example_scenario (c : Coercions) (dragonBreathRest futureGenRest : Obj) :
    ∃ out, plain c (exampleTable dragonBreathRest futureGenRest) = .ok out ∧
      hasOwn out "tackle" = true ∧ hasOwn out "dragonBreath" = true ∧
      hasOwn out "futureGen" = false ∧
      reportedCount c (exampleTable dragonBreathRest futureGenRest) = .ok 2 ∧
      out.lookup "tackle" = some (.obj [("id", .str "tackle"), ("name", .str "Tackle"),
        ("type", .str "Normal"), ("category", .str "Physical"), ("basePower", .num (.fin 40)),
        ("accuracy", .num (.fin 100)), ("pp", .num (.fin 35)), ("priority", .num (.fin 0)),
        ("flags", .obj [("contact", .bool true)])]) :=
  ⟨_, rfl, rfl, rfl, rfl, rfl, rfl⟩

/-- C8: two tables (distinct keys, the loop throws on neither) with the same key set, whose
records under each key agree on `gen` and on the eight projected fields, yield tables
`plain` that hold the same record under every key; when the keys also come in the same
order, the two tables `plain` are equal. Fields outside the allow-list play no part. -/
theorem plain_depends_only_on_read_fields (c : Coercions) (t1 t2 : Obj)
    (hnd1 : keysNodup t1 = true) (hnd2 : keysNodup t2 = true)
    (hdata1 : noNullishData t1 = true) (hdata2 : noNullishData t2 = true)
    (hco1 : coercible c t1 = true) (hco2 : coercible c t2 = true)
    (hkeys : ∀ k, hasOwn t1 k = hasOwn t2 k)
    (hagree : ∀ k d1 d2, (k, d1) ∈ t1 → (k, d2) ∈ t2 →
      ∀ n ∈ "gen" :: projectedNames, getProp d1 n = getProp d2 n) :
    ∃ out1 out2, plain c t1 = .ok out1 ∧ plain c t2 = .ok out2 ∧
      (∀ k, out1.lookup k = out2.lookup k) ∧ (keys t1 = keys t2 → out1 = out2) := by
  have hag : ∀ k d1 d2, (k, d1) ∈ t1 → (k, d2) ∈ t2 →
      ∀ n ∈ "gen" :: projectedNames, field d1 n = field d2 n := by
    intro k d1 d2 h1 h2 n hn
    simp only [field, hagree k d1 d2 h1 h2 n hn]
  have hk : ∀ k, k ∈ keys t1 ↔ k ∈ keys t2 := by
    intro k
    rw [← hasOwn_iff_mem_keys, ← hasOwn_iff_mem_keys, hkeys k]
  refine ⟨selected c t1, selected c t2, plain_eq_selected c t1 hnd1 hdata1 hco1,
    plain_eq_selected c t2 hnd2 hdata2 hco2, ?_, ?_⟩
  · exact lookup_selected_congr c t1 t2 (by simpa [keysNodup] using hnd1)
      (by simpa [keysNodup] using hnd2) hk hag
  · intro hsame
    exact selected_congr c t1 t2 hsame hag

/-- Witness for C8 on two tables that differ only outside the allow-list. -/
theorem plain_depends_only_on_read_fields_witness :
    keysNodup twoMoveTable = true ∧ keysNodup twoMoveTableAlt = true ∧
    noNullishData twoMoveTable = true ∧ noNullishData twoMoveTableAlt = true ∧
    coercible sampleCoercions twoMoveTable = true ∧
    coercible sampleCoercions twoMoveTableAlt = true ∧
    (∀ k, hasOwn twoMoveTable k = hasOwn twoMoveTableAlt k) ∧
    (∀ k d1 d2, (k, d1) ∈ twoMoveTable → (k, d2) ∈ twoMoveTableAlt →
      ∀ n ∈ "gen" :: projectedNames, getProp d1 n = getProp d2 n) ∧
    ∃ out1 out2, plain sampleCoercions twoMoveTable = .ok out1 ∧
      plain sampleCoercions twoMoveTableAlt = .ok out2 ∧
      (∀ k, out1.lookup k = out2.lookup k) ∧
      (keys twoMoveTable = keys twoMoveTableAlt → out1 = out2) := by
  have hkeys : ∀ k, hasOwn twoMoveTable k = hasOwn twoMoveTableAlt k := by
    intro k
    simp only [hasOwn, twoMoveTable, twoMoveTableAlt, List.lookup_cons]
    cases (k == "surf") <;> cases (k == "roost") <;> rfl
  have hagree : ∀ k d1 d2, (k, d1) ∈ twoMoveTable → (k, d2) ∈ twoMoveTableAlt →
      ∀ n ∈ "gen" :: projectedNames, getProp d1 n = getProp d2 n := by
    intro k d1 d2 h1 h2 n hn
    simp only [twoMoveTable, twoMoveTableAlt, List.mem_cons, Prod.mk.injEq, List.mem_nil_iff,
      or_false] at h1 h2
    simp only [projectedNames, List.mem_cons, List.mem_nil_iff, or_false] at hn
    rcases h1 with ⟨hk1, hd1⟩ | ⟨hk1, hd1⟩ <;> rcases h2 with ⟨hk2, hd2⟩ | ⟨hk2, hd2⟩ <;>
      subst hd1 <;> subst hd2 <;> subst hk1
    · rcases hn with h | h | h | h | h | h | h | h | h <;> subst h <;> rfl
    · exact absurd hk2 (by decide)
    · exact absurd hk2 (by decide)
    · rcases hn with h | h | h | h | h | h | h | h | h <;> subst h <;> rfl
  exact ⟨by decide, by decide, by decide, by decide, by decide, by decide, hkeys, hagree,
    plain_depends_only_on_read_fields sampleCoercions twoMoveTable twoMoveTableAlt (by decide)
      (by decide) (by decide) (by decide) (by decide) (by decide) hkeys hagree⟩

/-- C9: for a table with distinct keys on which the loop does not throw, an entry whose
`gen` reads as a falsy value has no entry in `plain`; the falsy values are `undefined`
(also what an absent `gen` reads as), `null`, `false`, `0`, `-0`, `NaN` and the empty
string. -/
theorem falsy_gen_is_excluded (c : Coercions) (allMoves : Obj)
    (hnd : keysNodup allMoves = true) (hdata : noNullishData allMoves = true)
    (hco : coercible c allMoves = true)
    (id : String) (data : Value) (hmem : (id, data) ∈ allMoves)
    (gen : Value) (hgen : getProp data "gen" = .ok gen) (hfalsy : truthy gen = false) :
    (∃ out, plain c allMoves = .ok out ∧ hasOwn out id = false) ∧
    (∀ es : Obj, es.lookup "gen" = none → getProp (.obj es) "gen" = .ok .undefined) ∧
    truthy .undefined = false ∧ truthy .null = false ∧ truthy (.bool false) = false ∧
    truthy (.num (.fin 0)) = false ∧ truthy (.num .negZero) = false ∧
    truthy (.num .nan) = false ∧ truthy (.str "") = false := by
  refine ⟨⟨selected c allMoves, plain_eq_selected c allMoves hnd hdata hco, ?_⟩, ?_, rfl, rfl,
    rfl, by decide, rfl, rfl, by decide⟩
  · rw [hasOwn_eq_false_iff,
      mem_keys_selected_iff c allMoves (by simpa [keysNodup] using hnd) id data hmem]
    have hf : field data "gen" = gen := by simp only [field, hgen]
    have hex := included_of_falsy c data (by rw [hf]; exact hfalsy)
    simp [hex]
  · intro es hes
    simp [getProp, hes]

/-- Witness for C9: a move with generation exactly 0 is excluded, although 0 ≤ 3. -/
theorem falsy_gen_is_excluded_witness :
    keysNodup zeroGenTable = true ∧ noNullishData zeroGenTable = true ∧
    coercible sampleCoercions zeroGenTable = true ∧
    ("zero", Value.obj [("gen", .num (.fin 0)), ("name", .str "Zero")]) ∈ zeroGenTable ∧
    getProp (Value.obj [("gen", .num (.fin 0)), ("name", .str "Zero")]) "gen"
      = .ok (.num (.fin 0)) ∧
    truthy (.num (.fin 0)) = false ∧
    JSNum.le (.fin 0) (.fin 3) = true ∧
    ((∃ out, plain sampleCoercions zeroGenTable = .ok out ∧ hasOwn out "zero" = false) ∧
    (∀ es : Obj, es.lookup "gen" = none → getProp (.obj es) "gen" = .ok .undefined) ∧
    truthy .undefined = false ∧ truthy .null = false ∧ truthy (.bool false) = false ∧
    truthy (.num (.fin 0)) = false ∧ truthy (.num .negZero) = false ∧
    truthy (.num .nan) = false ∧ truthy (.str "") = false) :=
  ⟨by decide, by decide, by decide, by simp [zeroGenTable], rfl, by decide, by decide,
    falsy_gen_is_excluded sampleCoercions zeroGenTable (by decide) (by decide) (by decide)
      "zero" (.obj [("gen", .num (.fin 0)), ("name", .str "Zero")]) (by simp [zeroGenTable])
      (.num (.fin 0)) rfl (by decide)⟩

/-! ## Claims about the report and the document -/

/-- C11 (amended): for a table with distinct keys, none of them `__proto__`, on which the
loop does not throw, the script reaches its report, and the count it prints is the number
of keys of `plain`, which is the number of source entries that pass the filter
`data.gen && data.gen <= 3`. -/
theorem reported_count_is_number_of_included_entries (c : Coercions) (allMoves : Obj)
    (hnd : keysNodup allMoves = true) (hdata : noNullishData allMoves = true)
    (hco : coercible c allMoves = true) (hproto : hasOwn allMoves "__proto__" = false) :
    ∃ out document, plain c allMoves = .ok out ∧
      run c allMoves = .ok (document, (keys out).length) ∧
      reportedCount c allMoves = .ok (keys out).length ∧
      (keys out).length = (allMoves.filter (fun e => included c e.2)).length := by
  have hp := plain_eq_selected c allMoves hnd hdata hco
  refine ⟨selected c allMoves, _, hp, run_eq_of_plain c allMoves _ hp,
    reportedCount_eq_of_plain c allMoves _ hp, ?_⟩
  rw [length_keys_selected, filter_stored_eq_of_no_proto c allMoves hproto]

/-- Witness for C11 (amended) on a table of two moves of which one passes the filter. -/
theorem reported_count_is_number_of_included_entries_witness :
    keysNodup twoMoveTable = true ∧ noNullishData twoMoveTable = true ∧
    coercible sampleCoercions twoMoveTable = true ∧
    hasOwn twoMoveTable "__proto__" = false ∧
    ∃ out document, plain sampleCoercions twoMoveTable = .ok out ∧
      run sampleCoercions twoMoveTable = .ok (document, (keys out).length) ∧
      reportedCount sampleCoercions twoMoveTable = .ok (keys out).length ∧
      (keys out).length =
        (twoMoveTable.filter (fun e => included sampleCoercions e.2)).length :=
  ⟨by decide, by decide, by decide, by decide,
    reported_count_is_number_of_included_entries sampleCoercions twoMoveTable (by decide)
      (by decide) (by decide) (by decide)⟩

/-- Counterexample to C11 as stated: in a table with distinct keys both entries pass the
filter, one of them under the own key `__proto__`; `plain` has one key and the count
printed is 1. -/
theorem proto_key_entry_is_not_counted :
    keysNodup protoKeyTable = true ∧
    (protoKeyTable.filter (fun e => included sampleCoercions e.2)).length = 2 ∧
    reportedCount sampleCoercions protoKeyTable = .ok 1 ∧
    ∃ out, plain sampleCoercions protoKeyTable = .ok out ∧ keys out = ["tackle"] :=
  ⟨by decide, by decide, rfl, _, rfl, rfl⟩

/-- C12 (amended): for a table with distinct keys on which the loop does not throw, the
script reaches its report whatever numbers the records hold; wherever a NaN or an
infinity can be reached in `plain`, along own properties and array elements at any depth,
the document written has `null` at the same place. -/
theorem non_finite_number_is_written_as_null (c : Coercions) (allMoves : Obj)
    (hnd : keysNodup allMoves = true) (hdata : noNullishData allMoves = true)
    (hco : coercible c allMoves = true) :
    ∃ out document, plain c allMoves = .ok out ∧
      run c allMoves = .ok (document, (keys out).length) ∧
      ∀ (p : List Step) (x : JSNum), valueAt p (.obj out) = some (.num x) →
        x.isFinite = false → jsonAt p document = some .null := by
  have hp := plain_eq_selected c allMoves hnd hdata hco
  have hnd0 : (keys allMoves).Nodup := by simpa [keysNodup] using hnd
  refine ⟨selected c allMoves, .obj (serializeEntries (selected c allMoves)), hp,
    run_eq_of_plain c allMoves _ hp, ?_⟩
  intro p x hv hx
  exact jsonAt_serialize x hx p (.obj (selected c allMoves)) _
    (wellFormed_selected c allMoves hnd0) hv rfl

/-- Witness for C12 (amended) on a move with NaN as `basePower` and inside `flags`. -/
theorem non_finite_number_is_written_as_null_witness :
    keysNodup nanPowerTable = true ∧ noNullishData nanPowerTable = true ∧
    coercible sampleCoercions nanPowerTable = true ∧
    ∃ out document, plain sampleCoercions nanPowerTable = .ok out ∧
      run sampleCoercions nanPowerTable = .ok (document, (keys out).length) ∧
      ∀ (p : List Step) (x : JSNum), valueAt p (.obj out) = some (.num x) →
        x.isFinite = false → jsonAt p document = some .null :=
  ⟨by decide, by decide, by decide,
    non_finite_number_is_written_as_null sampleCoercions nanPowerTable (by decide)
      (by decide) (by decide)⟩

/-- Counterexample to C12 as stated: a move whose record holds NaN as `basePower`, Infinity
as `accuracy` and a NaN inside `flags` after sanitization does not stop the script; the
document is written with `null` in the three places and the count 1 is reported. -/
theorem nan_base_power_run_succeeds :
    (∃ out, plain sampleCoercions nanPowerTable = .ok out ∧
      valueAt [.key "struggle", .key "basePower"] (.obj out) = some (.num .nan) ∧
      valueAt [.key "struggle", .key "accuracy"] (.obj out) = some (.num .posInf) ∧
      valueAt [.key "struggle", .key "flags", .key "hits", .index 1] (.obj out)
        = some (.num .nan)) ∧
    run sampleCoercions nanPowerTable =
      .ok (.obj [("struggle", .obj [("id", .str "struggle"), ("name", .str "Struggle"),
        ("type", .str "Normal"), ("category", .str "Physical"), ("basePower", .null),
        ("accuracy", .null), ("pp", .num 1), ("priority", .num 0),
        ("flags", .obj [("hits", .arr [.num 2, .null])])])], 1) :=
  ⟨⟨_, rfl, rfl, rfl, rfl⟩, rfl⟩

/-- C14: for a table with distinct keys on which the loop does not throw and an entry
`(id, data)` that passes the filter, the record the loop builds for it has as keys exactly
the nine names of the allow-list without those of the eight projected names whose source
value is a function; `id` is always among them, they are all nine when none of the eight
source values is a function, and a projected field absent from the source is kept with
value `undefined`. When `id` is not `__proto__`, this record is the one `plain` holds
under `id`. -/
theorem included_record_keys_exact (c : Coercions) (allMoves : Obj)
    (hnd : keysNodup allMoves = true) (hdata : noNullishData allMoves = true)
    (hco : coercible c allMoves = true)
    (id : String) (data : Value) (hmem : (id, data) ∈ allMoves)
    (gen : Value) (hgen : getProp data "gen" = .ok gen) (hok : genOk c gen = .ok true) :
    ∃ lit rec, project id data = .ok lit ∧ sanitize lit = .obj rec ∧
      keys rec = allowList.filter
        (fun n => !(decide (n ∈ projectedNames) && isFn (field data n))) ∧
      "id" ∈ keys rec ∧
      ((∀ n ∈ projectedNames, isFn (field data n) = false) → keys rec = allowList) ∧
      (∀ n ∈ projectedNames, ∀ es, data = .obj es → es.lookup n = none →
        rec.lookup n = some .undefined) ∧
      (id ≠ "__proto__" →
        ∃ out, plain c allMoves = .ok out ∧ out.lookup id = some (.obj rec)) := by
  have hnd0 : (keys allMoves).Nodup := by simpa [keysNodup] using hnd
  have hnn := not_nullish_of_mem allMoves hdata id data hmem
  have hinc : included c data = true := by
    have hf : field data "gen" = gen := by simp only [field, hgen]
    exact included_of_genOk c data true (by rw [hf]; exact hok)
  have hkeys := keys_keptEntries_literal id data
  refine ⟨.obj (literal id data), keptEntries (literal id data),
    project_of_not_nullish id data hnn, record_eq id data, ?_, ?_, ?_, ?_, ?_⟩
  · rw [hkeys]
    have hid : decide ("id" ∈ projectedNames) = false := by decide
    simp only [allowList, List.filter_cons, hid, Bool.false_and, Bool.not_false, if_true]
    congr 1
  · rw [hkeys]
    exact List.mem_cons_self _ _
  · intro hno
    rw [hkeys, filter_projectedNames_of_no_fn data hno, allowList]
  · intro n hn es hes hnone
    have hfield : field data n = .undefined := by
      subst hes
      simp [field, getProp, hnone]
    rw [lookup_keptEntries_literal id data n hn, hfield]
    rfl
  · intro hid
    refine ⟨selected c allMoves, plain_eq_selected c allMoves hnd hdata hco, ?_⟩
    rw [lookup_selected c allMoves hnd0 id data hmem, if_pos ⟨hinc, hid⟩, record_eq]

/-- Witness for C14 on a move whose `type` is a function and that has no `pp`. -/
theorem included_record_keys_exact_witness :
    keysNodup fnTypeTable = true ∧ noNullishData fnTypeTable = true ∧
    coercible sampleCoercions fnTypeTable = true ∧
    ∃ lit rec,
      project "curse" (.obj [("gen", .num (.fin 2)), ("name", .str "Curse"), ("type", .fn 7),
        ("flags", .obj [])]) = .ok lit ∧
      sanitize lit = .obj rec ∧
      keys rec = allowList.filter
        (fun n => !(decide (n ∈ projectedNames) &&
          isFn (field (.obj [("gen", .num (.fin 2)), ("name", .str "Curse"), ("type", .fn 7),
            ("flags", .obj [])]) n))) ∧
      "id" ∈ keys rec ∧
      ((∀ n ∈ projectedNames,
          isFn (field (.obj [("gen", .num (.fin 2)), ("name", .str "Curse"), ("type", .fn 7),
            ("flags", .obj [])]) n) = false) → keys rec = allowList) ∧
      (∀ n ∈ projectedNames, ∀ es,
        Value.obj [("gen", .num (.fin 2)), ("name", .str "Curse"), ("type", .fn 7),
            ("flags", .obj [])] = .obj es → es.lookup n = none →
        rec.lookup n = some .undefined) ∧
      ("curse" ≠ "__proto__" →
        ∃ out, plain sampleCoercions fnTypeTable = .ok out ∧
          out.lookup "curse" = some (.obj rec)) :=
  ⟨by decide, by decide, by decide,
    included_record_keys_exact sampleCoercions fnTypeTable (by decide) (by decide)
      (by decide) "curse" _ (by simp [fnTypeTable]) (.num (.fin 2)) rfl rfl⟩

end ConvertMoves
